import Mathlib

/-!
Verification of the cranelift instruction legalizer and the frontend switch
builder, as described in the repository specification.

The development contains two shallow embeddings:

* `Legalizer`: the IR data model (`ir::Function`, DFG, layout, jump tables,
  encodings) and the hand-written control-flow expansions of
  `src/cranelift-codegen/src/legalizer/mod.rs` (`expand_cond_trap`,
  `expand_br_table_jt`, `expand_br_table_conds`, `expand_select`), together
  with the driver loop (`legalize_inst` / `legalize_function`).
* `SwitchM`: the sparse/dense switch builder of
  `src/lib/frontend/src/switch.rs` (`build_cases_tree`, `build_search_tree`,
  `build_jump_tables`, `Switch::emit`).

Machine integers are modelled as `Int`/`Nat` with explicit two's-complement
wrapping where the Rust code wraps, and fallible code (Rust panics such as
out-of-bounds indexing or `usize` underflow) is modelled with `Option`.
-/

namespace Legalizer

/-!
Entity references (`cranelift-codegen/src/ir/entities.rs`) are plain indices
into the function's tables, written `Nat` throughout: EBBs (`ir::Ebb`),
instructions (`ir::Inst`), SSA values (`ir::Value`), jump tables
(`ir::JumpTable`), encoding tokens (`isa::Encoding`, where absence from the
encodings map is the "none" encoding) and trap codes (`ir::TrapCode`, only
ever copied around by the legalizer).
-/

/-- Integer condition codes (`ir::condcodes::IntCC`). -/
inductive IntCC
  | eq | ne | slt | sge | sgt | sle | ult | uge | ugt | ule
deriving DecidableEq

/-- The scalar types the modelled code mentions (`ir::types`): `b1` is the
boolean result type of `icmp`, the rest are the integer types. -/
inductive Ty
  | b1 | i8 | i16 | i32 | i64
deriving DecidableEq

/-- Bit width of a type (`Type::bits`). -/
def Ty.bits : Ty → Nat
  | .b1 => 1
  | .i8 => 8
  | .i16 => 16
  | .i32 => 32
  | .i64 => 64

/-- Byte width of a type (`Type::bytes`); only used at `I32` where it is `4`. -/
def Ty.bytes (t : Ty) : Nat := t.bits / 8

/-- Instruction data (`ir::InstructionData`), restricted to the shapes the
legalizer's hand-written expansions consume and produce.  The `CondTrap`
variant is flattened into its two opcodes `trapz`/`trapnz`; `call`, `ret` and
`other` stand for the remaining instruction shapes, which the driver either
hands to the ABI handlers or to the encoding oracle unchanged. -/
inductive InstructionData
  | trapz (arg : Nat) (code : Nat)
  | trapnz (arg : Nat) (code : Nat)
  | brTable (arg : Nat) (destination : Nat) (table : Nat)
  | select (c t f : Nat)
  | icmpImm (cond : IntCC) (arg : Nat) (imm : Int)
  | brnz (arg : Nat) (destination : Nat) (args : List Nat)
  | brz (arg : Nat) (destination : Nat) (args : List Nat)
  | jump (destination : Nat) (args : List Nat)
  | trap (code : Nat)
  | jumpTableBase (ty : Ty) (table : Nat)
  | jumpTableEntry (ty : Ty) (arg : Nat) (base : Nat) (entrySize : Nat)
      (table : Nat)
  | iadd (x y : Nat)
  | indirectJumpTableBr (addr : Nat) (table : Nat)
  | call (tag : Nat) (args : List Nat)
  | ret (args : List Nat)
  | other (tag : Nat)
deriving DecidableEq

/-- `Opcode::is_call`. -/
def InstructionData.isCall : InstructionData → Bool
  | .call _ _ => true
  | _ => false

/-- `Opcode::is_return`. -/
def InstructionData.isReturn : InstructionData → Bool
  | .ret _ => true
  | _ => false

/-- `Opcode::is_branch`: branches, including the unconditional `jump` and
`br_table`. -/
def InstructionData.isBranch : InstructionData → Bool
  | .brnz _ _ _ => true
  | .brz _ _ _ => true
  | .jump _ _ => true
  | .brTable _ _ _ => true
  | _ => false

/-- Direct EBB destination(s) stored in the instruction data (the destination
operand of a branch). -/
def InstructionData.directTargets : InstructionData → List Nat
  | .brnz _ d _ => [d]
  | .brz _ d _ => [d]
  | .jump d _ => [d]
  | .brTable _ d _ => [d]
  | _ => []

/-- Where a value comes from (`ir::dfg::ValueDef`): result number `num` of an
instruction, or parameter number `num` of an EBB. -/
inductive ValueDef
  | result (i : Nat) (num : Nat)
  | param (e : Nat) (num : Nat)
deriving DecidableEq

/-- Association-list lookup keyed by `Nat` entity references. -/
def lookupA {α : Type} : List (Nat × α) → Nat → Option α
  | [], _ => none
  | (k, v) :: rest, k' => if k = k' then some v else lookupA rest k'

/-- Association-list update: overwrite the binding of `k`, or append a new one. -/
def setAssoc {α : Type} : List (Nat × α) → Nat → α → List (Nat × α)
  | [], k, v => [(k, v)]
  | (k', v') :: rest, k, v =>
      if k' = k then (k, v) :: rest else (k', v') :: setAssoc rest k v

/-- The data-flow graph (`ir::DataFlowGraph`): instruction data, value
definitions and types, EBB parameter lists, and the allocation counters for
instructions, values and EBBs (all three entity kinds are created by the DFG). -/
structure DFG where
  instData : List (Nat × InstructionData)
  valueDefs : List (Nat × ValueDef)
  valueTys : List (Nat × Ty)
  ebbParams : List (Nat × List Nat)
  nextInst : Nat
  nextValue : Nat
  nextEbb : Nat
deriving DecidableEq

/-- `DataFlowGraph::make_ebb`: allocate a fresh EBB with no parameters. -/
def DFG.makeEbb (d : DFG) : Nat × DFG :=
  (d.nextEbb,
    { d with
      nextEbb := d.nextEbb + 1
      ebbParams := setAssoc d.ebbParams d.nextEbb [] })

/-- Create a fresh instruction carrying `data` (the DFG part of the cursor's
`ins()`, for an instruction without results). -/
def DFG.makeInst (d : DFG) (data : InstructionData) : Nat × DFG :=
  (d.nextInst,
    { d with
      nextInst := d.nextInst + 1
      instData := setAssoc d.instData d.nextInst data })

/-- Create a fresh instruction carrying `data` with a single fresh result of
type `ty` (the DFG part of the cursor's `ins()` for a value-producing
instruction). Returns the instruction, its result value, and the new DFG. -/
def DFG.makeInstWithResult (d : DFG) (data : InstructionData) (ty : Ty) :
    Nat × Nat × DFG :=
  (d.nextInst, d.nextValue,
    { d with
      nextInst := d.nextInst + 1
      nextValue := d.nextValue + 1
      instData := setAssoc d.instData d.nextInst data
      valueDefs := setAssoc d.valueDefs d.nextValue (.result d.nextInst 0)
      valueTys := setAssoc d.valueTys d.nextValue ty })

/-- `DataFlowGraph::replace(inst)`: overwrite the data of an existing
instruction, keeping its identity. -/
def DFG.replaceInst (d : DFG) (i : Nat) (data : InstructionData) : DFG :=
  { d with instData := setAssoc d.instData i data }

/-- `DataFlowGraph::first_result(inst)`: the value that is result number 0 of
`inst` (`none` models the panic when the instruction has no results). -/
def DFG.firstResult (d : DFG) (i : Nat) : Option Nat :=
  (d.valueDefs.find? fun p => p.2 = ValueDef.result i 0).map Prod.fst

/-- `DataFlowGraph::clear_results(inst)`: detach all result values of `inst`
(their defs are removed; the values themselves survive, to be re-attached). -/
def DFG.clearResults (d : DFG) (i : Nat) : DFG :=
  { d with
    valueDefs := d.valueDefs.filter fun p =>
      match p.2 with
      | .result j _ => j ≠ i
      | _ => true }

/-- `DataFlowGraph::attach_ebb_param(ebb, val)`: append an existing value to
the EBB's parameter list and redefine it as that parameter. -/
def DFG.attachEbbParam (d : DFG) (e : Nat) (v : Nat) : DFG :=
  let ps := (lookupA d.ebbParams e).getD []
  { d with
    ebbParams := setAssoc d.ebbParams e (ps ++ [v])
    valueDefs := setAssoc d.valueDefs v (.param e ps.length) }

/-- The function being legalized (`ir::Function`), with the parts the
legalizer touches: DFG, layout (ordered EBBs, each with its ordered
instruction list), jump tables, and the per-instruction encodings map
(absence of a binding is the "none" encoding). -/
structure Func where
  dfg : DFG
  layout : List (Nat × List Nat)
  jumpTables : List (List Nat)
  encodings : List (Nat × Nat)
deriving DecidableEq

/-- Split an instruction list at the first occurrence of `i`:
`l = a ++ i :: b` gives `some (a, b)`. -/
def splitAtInst : List Nat → Nat → Option (List Nat × List Nat)
  | [], _ => none
  | x :: xs, i =>
      if x = i then some ([], xs)
      else (splitAtInst xs i).map fun p => (x :: p.1, p.2)

/-- Find the layout entry whose instruction list contains `inst` (the
`Layout::pp_ebb` lookup combined with the cursor's split of that EBB), replace
that EBB's instructions by `mk a b` (where the old list was `a ++ inst :: b`)
and splice the produced new EBBs right after it.  `none` models the panic when
`inst` is not placed in the layout. -/
def replaceEbbContent (inst : Nat)
    (mk : List Nat → List Nat → List Nat × List (Nat × List Nat)) :
    List (Nat × List Nat) → Option (Nat × List (Nat × List Nat))
  | [] => none
  | (e, l) :: rest =>
      match splitAtInst l inst with
      | some (a, b) =>
          let (newL, newEbbs) := mk a b
          some (e, (e, newL) :: newEbbs ++ rest)
      | none =>
          (replaceEbbContent inst mk rest).map fun p => (p.1, (e, l) :: p.2)

/-- `expand_cond_trap` (src/cranelift-codegen/src/legalizer/mod.rs, lines
128-175).  `trapz`/`trapnz` is replaced by a branch over an unconditional
trap; the EBB is split after the trap and the new EBB receives the remaining
instructions.  Returns the rewritten function together with the list of EBBs
whose CFG information the source recomputes, in call order.  `none` models
the source's panics (wrong instruction shape, instruction not in layout). -/
def expand_cond_trap (inst : Nat) (f : Func) : Option (Func × List Nat) := do
  -- Parse the instruction.
  let (trapz, arg, code) ←
    match lookupA f.dfg.instData inst with
    | some (.trapz a c) => some (true, a, c)
    | some (.trapnz a c) => some (false, a, c)
    | _ => none
  let (new_ebb, dfg) := f.dfg.makeEbb
  let dfg :=
    if trapz then dfg.replaceInst inst (.brnz arg new_ebb [])
    else dfg.replaceInst inst (.brz arg new_ebb [])
  -- Cursor after `inst`: insert the unconditional trap, then split the EBB.
  let (trapInst, dfg) := dfg.makeInst (.trap code)
  let (old_ebb, layout) ← replaceEbbContent inst
    (fun a b => (a ++ [inst, trapInst], [(new_ebb, b)])) f.layout
  -- Finally update the CFG: old EBB first, then the new one.
  some ({ f with dfg := dfg, layout := layout }, [old_ebb, new_ebb])

/-- `expand_br_table_jt` (src/cranelift-codegen/src/legalizer/mod.rs, lines
192-256): rewrite `br_table` into a bounds check branching to the default EBB
and a dispatch EBB doing base + scaled entry, ending in
`indirect_jump_table_br`.  `ptrTy` stands for `isa.pointer_type()`. -/
def expand_br_table_jt (ptrTy : Ty) (inst : Nat) (f : Func) :
    Option (Func × List Nat) := do
  let (arg, default_ebb, table) ←
    match lookupA f.dfg.instData inst with
    | some (.brTable a d t) => some (a, d, t)
    | _ => none
  let entries ← f.jumpTables[table]?
  let table_size := entries.length
  let addr_ty := ptrTy
  let entry_ty := Ty.i32
  let (jump_table_ebb, dfg) := f.dfg.makeEbb
  -- Bounds check, inserted before `inst` in its EBB.
  let (i1, oob, dfg) :=
    dfg.makeInstWithResult (.icmpImm .uge arg (table_size : Int)) .b1
  let (i2, dfg) := dfg.makeInst (.brnz oob default_ebb [])
  let (i3, dfg) := dfg.makeInst (.jump jump_table_ebb [])
  -- The dispatch EBB split off at `inst`.
  let (i4, base_addr, dfg) :=
    dfg.makeInstWithResult (.jumpTableBase addr_ty table) addr_ty
  let (i5, entry, dfg) :=
    dfg.makeInstWithResult
      (.jumpTableEntry addr_ty arg base_addr entry_ty.bytes table) addr_ty
  let (i6, addr, dfg) := dfg.makeInstWithResult (.iadd base_addr entry) addr_ty
  let (i7, dfg) := dfg.makeInst (.indirectJumpTableBr addr table)
  -- Layout: bounds check stays in the old EBB, dispatch code goes to the new
  -- EBB, and `inst` itself is removed (`pos.remove_inst()`).
  let (ebb, layout) ← replaceEbbContent inst
    (fun a b => (a ++ [i1, i2, i3], [(jump_table_ebb, [i4, i5, i6, i7] ++ b)]))
    f.layout
  some ({ f with dfg := dfg, layout := layout }, [ebb, jump_table_ebb])

/-- Allocate `n` fresh EBBs (the `cond_failed_ebb` vector of
`expand_br_table_conds`), in allocation order. -/
def DFG.makeEbbs : DFG → Nat → List Nat × DFG
  | d, 0 => ([], d)
  | d, n + 1 =>
      let (e, d) := d.makeEbb
      let (es, d) := d.makeEbbs n
      (e :: es, d)

/-- The emission loop of `expand_br_table_conds`: for entry number `i` with
destination `dest`, emit `t = icmp_imm eq arg, i; brnz t, dest`, then either
`jump` to the next `cond_failed` EBB (splitting there) or, after the last
entry, the final `jump default_ebb`.  Returns the new DFG, the instruction
list appended to the current EBB, and the `(ebb, instructions)` pairs of the
freshly split-off EBBs in layout order. -/
def condsEmit (arg : Nat) (default_ebb : Nat) :
    DFG → Nat → List Nat → List Nat →
    DFG × List Nat × List (Nat × List Nat)
  | dfg, _, [], _ =>
      -- After the loop: `br_table` jumps to the default destination if
      -- nothing matches.
      let (j, dfg) := dfg.makeInst (.jump default_ebb [])
      (dfg, [j], [])
  | dfg, i, [dest], _ =>
      -- Last iteration: no jump to a `cond_failed` EBB; the recursive call
      -- only emits the final jump to the default destination.
      let (i1, t, dfg) := dfg.makeInstWithResult (.icmpImm .eq arg i) .b1
      let (i2, dfg) := dfg.makeInst (.brnz t dest [])
      let (dfg, cur, blocks) := condsEmit arg default_ebb dfg (i + 1) [] []
      (dfg, i1 :: i2 :: cur, blocks)
  | dfg, _, _ :: _ :: _, [] =>
      -- Unreachable: the caller passes exactly one fewer fall-through EBB
      -- than there are remaining entries.
      (dfg, [], [])
  | dfg, i, dest :: rest₀ :: rest₁, cf :: cfs' =>
      let (i1, t, dfg) := dfg.makeInstWithResult (.icmpImm .eq arg i) .b1
      let (i2, dfg) := dfg.makeInst (.brnz t dest [])
      let (j, dfg) := dfg.makeInst (.jump cf [])
      let (dfg, cur, blocks) :=
        condsEmit arg default_ebb dfg (i + 1) (rest₀ :: rest₁) cfs'
      (dfg, [i1, i2, j], (cf, cur) :: blocks)
termination_by _ _ l _ => l.length
decreasing_by all_goals simp [List.length_cons]

/-- Append `b` to the instruction list of the last block of the chain
(the trailing instructions of the original EBB travel with the split cursor
and end up in the last `cond_failed` EBB). -/
def appendToLastBlock (first : List Nat) (blocks : List (Nat × List Nat))
    (b : List Nat) : List Nat × List (Nat × List Nat) :=
  match blocks with
  | [] => (first ++ b, [])
  | x :: rest =>
      let (l, bs) := appendToLastBlock x.2 rest b
      (first, (x.1, l) :: bs)

/-- `expand_br_table_conds` (src/cranelift-codegen/src/legalizer/mod.rs,
lines 259-308): lower `br_table` to a chain of `icmp_imm eq` / `brnz` pairs,
one per table entry, linked by jumps through `cond_failed` EBBs and ending in
a jump to the default destination.  The `table_size - 1` of the source is a
`usize` subtraction: for an empty table it underflows (a panic in debug
builds, an aborted capacity-overflow allocation in release builds), which is
modelled by returning `none`. -/
def expand_br_table_conds (inst : Nat) (f : Func) :
    Option (Func × List Nat) := do
  let (arg, default_ebb, table) ←
    match lookupA f.dfg.instData inst with
    | some (.brTable a d t) => some (a, d, t)
    | _ => none
  let entries ← f.jumpTables[table]?
  let table_size := entries.length
  if table_size = 0 then
    -- `Vec::with_capacity(table_size - 1)` underflows on `usize`.
    none
  else
    let (cond_failed, dfg) := f.dfg.makeEbbs (table_size - 1)
    let (dfg, first, blocks) := condsEmit arg default_ebb dfg 0 entries cond_failed
    let (ebb, layout) ← replaceEbbContent inst
      (fun a b =>
        let (firstL, blocksL) := appendToLastBlock first blocks b
        (a ++ firstL, blocksL))
      f.layout
    some ({ f with dfg := dfg, layout := layout }, ebb :: cond_failed)

/-- `expand_br_table` (src/cranelift-codegen/src/legalizer/mod.rs, lines
178-189): dispatch on the target's `jump_tables_enabled` flag. -/
def expand_br_table (jumpTablesEnabled : Bool) (ptrTy : Ty) (inst : Nat)
    (f : Func) : Option (Func × List Nat) :=
  if jumpTablesEnabled then expand_br_table_jt ptrTy inst f
  else expand_br_table_conds inst f

/-- `expand_select` (src/cranelift-codegen/src/legalizer/mod.rs, lines
314-347): replace `result = select ctrl, tval, fval` with a two-way branch
into a fresh merge EBB; the original result value is detached from the
instruction and re-attached as the merge EBB's parameter. -/
def expand_select (inst : Nat) (f : Func) : Option (Func × List Nat) := do
  let (ctrl, tval, fval) ←
    match lookupA f.dfg.instData inst with
    | some (.select c t fv) => some (c, t, fv)
    | _ => none
  let result ← f.dfg.firstResult inst
  let dfg := f.dfg.clearResults inst
  let (new_ebb, dfg) := dfg.makeEbb
  let dfg := dfg.attachEbbParam new_ebb result
  let dfg := dfg.replaceInst inst (.brnz ctrl new_ebb [tval])
  let (jinst, dfg) := dfg.makeInst (.jump new_ebb [fval])
  let (old_ebb, layout) ← replaceEbbContent inst
    (fun a b => (a ++ [inst, jinst], [(new_ebb, b)])) f.layout
  -- CFG update order in the source: the new EBB first, then the old one.
  some ({ f with dfg := dfg, layout := layout }, [new_ebb, old_ebb])

/-- The target-ISA interface the driver consumes.  `encode` is the encoding
oracle (`TargetIsa::encode`, behind `Function::update_encoding`), returning an
encoding or a legalization action; actions, the libcall fallback and the ABI
handlers live outside the modelled sources (generated tables and the
`boundary`/`split`/`libcall` modules), so they are abstract state
transformers here, each reporting the changed flag the driver inspects.
Modelled from the spec: sections 4.1, 4.2, 4.6-4.8 (encoding oracle totality,
ABI handlers returning "modified", libcall fallback, branch-argument
simplification as a pure DFG edit with no changed flag). -/
structure Isa where
  encode : InstructionData → Except Nat Nat
  applyAction : Nat → Nat → Func → Func × Bool
  expandAsLibcall : Nat → Func → Func × Bool
  handleCallAbi : Nat → Func → Func × Bool
  handleReturnAbi : Nat → Func → Func × Bool
  simplifyBranchArguments : Nat → Func → Func
  legalizeSignatures : Func → Func
  jumpTablesEnabled : Bool
  pointerType : Ty

/-- `Function::update_encoding(inst, isa)`.  Its body is not among the
modelled sources; modelled from the spec (section 4.2, "Query the encoding
oracle. On `Ok`, record encoding") and from the older in-repo legalizer
(src/lib/cretonne/src/legalizer/mod.rs, lines 77-82), which inlines the same
step: ask `isa.encode` for the instruction's data and on success record the
encoding.  `none` models the panic on an unknown instruction. -/
def update_encoding (isa : Isa) (inst : Nat) (f : Func) :
    Option (Except Nat Func) :=
  (lookupA f.dfg.instData inst).map fun d =>
    match isa.encode d with
    | .ok e => .ok { f with encodings := setAssoc f.encodings inst e }
    | .error action => .error action

/-- `legalize_inst` (src/cranelift-codegen/src/legalizer/mod.rs, lines
40-79).  Returns the rewritten function and `true` if any changes to the code
were made, or the function with the recorded encoding and `false` if the
instruction was successfully encoded as is.  When the oracle returns an
action that reports no change and the libcall fallback also fails, the result
is simply the libcall handler's `(func, false)`: there is no error path. -/
def legalize_inst (isa : Isa) (inst : Nat) (f₀ : Func) :
    Option (Func × Bool) := do
  let data ← lookupA f₀.dfg.instData inst
  -- Check for ABI boundaries that need to be converted to the legalized
  -- signature.
  let (f, abiChanged) :=
    if data.isCall then isa.handleCallAbi inst f₀
    else if data.isReturn then isa.handleReturnAbi inst f₀
    else if data.isBranch then (isa.simplifyBranchArguments inst f₀, false)
    else (f₀, false)
  if abiChanged then
    some (f, true)
  else
    match ← update_encoding isa inst f with
    | .ok f' => some (f', false)
    | .error action =>
        -- We should transform the instruction into legal equivalents.
        let (f', changed) := isa.applyAction action inst f
        if changed then some (f', true)
        else
          -- We don't have any pattern expansion for this instruction either.
          -- Try converting it to a library call as a last resort.
          some (isa.expandAsLibcall inst f')

/-- Cursor positions (`cursor::CursorPosition`). -/
inductive CursorPos
  | nowhere
  | atInst (i : Nat)
  | before (e : Nat)
  | after (e : Nat)
deriving DecidableEq

/-- The EBB following `e` in the layout. -/
def ebbAfter : List (Nat × List Nat) → Nat → Option Nat
  | [], _ => none
  | (e', _) :: rest, e =>
      if e' = e then rest.head?.map Prod.fst else ebbAfter rest e

/-- The EBB a cursor position belongs to. -/
def posEbb (f : Func) : CursorPos → Option Nat
  | .nowhere => none
  | .before e => some e
  | .after e => some e
  | .atInst i => (f.layout.find? fun p => i ∈ p.2).map Prod.fst

/-- `Cursor::next_ebb`: go to the top of the next EBB in layout order. -/
def next_ebb (f : Func) (pos : CursorPos) : Option (Nat × CursorPos) :=
  match pos with
  | .nowhere => f.layout.head?.map fun p => (p.1, .before p.1)
  | p =>
      match posEbb f p with
      | none => none
      | some e => (ebbAfter f.layout e).map fun e' => (e', .before e')

/-- The instruction following the first occurrence of `i` in a list. -/
def instAfter : List Nat → Nat → Option Nat
  | [], _ => none
  | x :: xs, i => if x = i then xs.head? else instAfter xs i

/-- `Cursor::next_inst`: advance to the next instruction of the current EBB,
or to the `After` position (returning no instruction) at its end. -/
def next_inst (f : Func) : CursorPos → CursorPos × Option Nat
  | .before e =>
      match lookupA f.layout e with
      | some (i :: _) => (.atInst i, some i)
      | _ => (.after e, none)
  | .atInst i =>
      match posEbb f (.atInst i) with
      | none => (.atInst i, none)
      | some e =>
          match (lookupA f.layout e).bind (instAfter · i) with
          | some j => (.atInst j, some j)
          | none => (.after e, none)
  | p => (p, none)

/-- The inner instruction loop of `legalize_function` (lines 103-111): on a
reported change, double back to `prev_pos`; otherwise remember the current
position.  `fuel` bounds the number of iterations (the source loop is not
guaranteed to terminate when an action keeps reporting changes); `none` means
fuel ran out or an instruction lookup panicked. -/
def instLoop (isa : Isa) : Nat → Func → CursorPos → CursorPos →
    Option (Func × CursorPos)
  | 0, _, _, _ => none
  | fuel + 1, f, pos, prev =>
      match next_inst f pos with
      | (pos', none) => some (f, pos')
      | (pos', some inst) =>
          match legalize_inst isa inst f with
          | none => none
          | some (f', true) => instLoop isa fuel f' prev prev
          | some (f', false) => instLoop isa fuel f' pos' pos'

/-- The outer EBB loop of `legalize_function` (lines 98-112): process EBBs in
layout order, starting each with `prev_pos` at the top of the EBB. -/
def ebbLoop (isa : Isa) : Nat → Func → CursorPos → Option Func
  | 0, _, _ => none
  | fuel + 1, f, pos =>
      match next_ebb f pos with
      | none => some f
      | some (_, pos') =>
          match instLoop isa fuel f pos' pos' with
          | none => none
          | some (f', pos'') => ebbLoop isa fuel f' pos''

/-- `legalize_function` (src/cranelift-codegen/src/legalizer/mod.rs, lines
86-118).  Runs ABI signature legalization, walks the layout legalizing every
instruction, and finally clears the jump tables when the target forbids
hardware jump tables.  The return type carries no error: `none` only models
fuel exhaustion or a panic, never a rejection — the source function returns
`()` unconditionally. -/
def legalize_function (isa : Isa) (fuel : Nat) (f : Func) : Option Func :=
  let f := isa.legalizeSignatures f
  -- `func.encodings.resize(...)`: the model's encodings map defaults to
  -- "none", so resizing is a no-op here.
  match ebbLoop isa fuel f .nowhere with
  | none => none
  | some f' =>
      some (if isa.jumpTablesEnabled then f' else { f' with jumpTables := [] })

end Legalizer

namespace SwitchM

/-! The frontend switch builder, src/lib/frontend/src/switch.rs. -/

/-!
EBB and SSA value references are plain `Nat` indices; switch keys
(`type EntryIndex = i64` in the source) are `Int`, and arithmetic on them
wraps explicitly where the Rust code wraps.
-/

/-- The value types relevant to the switch builder (`val` is an integer
index; the emitted comparisons require an integer type). -/
inductive Ty
  | i8 | i16 | i32 | i64
deriving DecidableEq

/-- Bit width. -/
def Ty.bits : Ty → Nat
  | .i8 => 8
  | .i16 => 16
  | .i32 => 32
  | .i64 => 64

/-- Two's-complement wrap of an integer into the `i64` range
`[-2^63, 2^63)`, the behaviour of overflowing `i64` arithmetic in Rust
release builds (`-first_index` wraps for `i64::MIN`). -/
def wrapI64 (n : Int) : Int := (n + 2 ^ 63) % 2 ^ 64 - 2 ^ 63

/-- The instructions the switch builder emits. -/
inductive SwInst
  | icmpImm (res : Nat) (cond : Legalizer.IntCC) (arg : Nat) (imm : Int)
  | brnz (arg : Nat) (dest : Nat)
  | jump (dest : Nat)
  | uextend (res : Nat) (ty : Ty) (arg : Nat)
  | iaddImm (res : Nat) (arg : Nat) (imm : Int)
  | brTable (arg : Nat) (table : Nat)
deriving DecidableEq

/-- The slice of `FunctionBuilder` state the switch builder uses: the created
EBBs with the instructions inserted into each, the current insertion block,
the created jump tables, and fresh-entity counters. -/
structure Builder where
  blocks : List (Nat × List SwInst)
  cur : Nat
  nextEbb : Nat
  nextValue : Nat
  jumpTables : List (List Nat)
deriving DecidableEq

/-- `FunctionBuilder::create_ebb`. -/
def Builder.createEbb (b : Builder) : Nat × Builder :=
  (b.nextEbb,
    { b with nextEbb := b.nextEbb + 1, blocks := b.blocks ++ [(b.nextEbb, [])] })

/-- Append an instruction to a block's list (helper for `ins`). -/
def appendIns : List (Nat × List SwInst) → Nat → SwInst →
    List (Nat × List SwInst)
  | [], _, _ => []
  | (e, l) :: rest, e', i =>
      if e = e' then (e, l ++ [i]) :: rest else (e, l) :: appendIns rest e' i

/-- `bx.ins().…`: insert an instruction at the end of the current block.
(The builder panics when the current block does not exist; the switch code
only ever inserts into blocks it has created or been handed.) -/
def Builder.ins (b : Builder) (i : SwInst) : Builder :=
  { b with blocks := appendIns b.blocks b.cur i }

/-- Allocate a fresh SSA value (the result of a value-producing
instruction). -/
def Builder.allocValue (b : Builder) : Nat × Builder :=
  (b.nextValue, { b with nextValue := b.nextValue + 1 })

/-- `FunctionBuilder::switch_to_block`. -/
def Builder.switchTo (b : Builder) (e : Nat) : Builder := { b with cur := e }

/-- `FunctionBuilder::create_jump_table`: register the entry list and return
its index. -/
def Builder.createJumpTable (b : Builder) (entries : List Nat) :
    Nat × Builder :=
  (b.jumpTables.length, { b with jumpTables := b.jumpTables ++ [entries] })

/-- `cases.sort_by_key(|&(index, _)| index)`: a stable sort by key (Rust's
`sort_by_key` is stable; with the builder's distinct keys any sort by key
produces this same list). -/
def sortByKey (l : List (Int × Nat)) : List (Int × Nat) :=
  List.insertionSort (fun a b => a.1 ≤ b.1) l

/-- The clustering loop of `build_cases_tree` (lines 40-53): walk the sorted
entries, opening a new cluster whenever the key jumps by more than one, and
otherwise pushing the EBB onto the current cluster.  `last` is the previous
key, `cur` the cluster currently being grown. -/
def clusterRuns : Int → Int × List Nat →
    List (Int × Nat) → List (Int × List Nat)
  | _, cur, [] => [cur]
  | last, cur, (index, ebb) :: rest =>
      if index > last + 1 then cur :: clusterRuns index (index, [ebb]) rest
      else clusterRuns index (cur.1, cur.2 ++ [ebb]) rest

/-- `Switch::build_cases_tree` (lines 35-58): sort the entries by key and
group them into maximal runs of consecutive keys. -/
def build_cases_tree (cases : List (Int × Nat)) :
    List (Int × List Nat) :=
  match sortByKey cases with
  | [] => []
  | (k, e) :: rest => clusterRuns k (k, [e]) rest

/-- One iteration of the descending cascade in `build_search_tree`'s base
case (lines 68-80): an equality test for a singleton cluster; a signed
lower-bound test branching to a fresh jump-table dispatch EBB for a run,
which is recorded in `cases_and_jt_ebbs`. -/
def cascadeStep (val : Nat) (st : Builder × List (Int × Nat × List Nat))
    (c : Int × List Nat) : Builder × List (Int × Nat × List Nat) :=
  let (bx, acc) := st
  match c with
  | (first_index, [e]) =>
      let (v, bx) := bx.allocValue
      let bx := bx.ins (.icmpImm v .eq val first_index)
      let bx := bx.ins (.brnz v e)
      (bx, acc)
  | (first_index, ebbs) =>
      let (jt_ebb, bx) := bx.createEbb
      let (v, bx) := bx.allocValue
      let bx := bx.ins (.icmpImm v .sge val first_index)
      let bx := bx.ins (.brnz v jt_ebb)
      (bx, acc ++ [(first_index, jt_ebb, ebbs)])

/-- `Switch::build_search_tree` (lines 60-102).  At most three clusters:
emit the comparison cascade in descending cluster order, ending in an
unconditional jump to `otherwise`.  More than three: split the cluster list
at the midpoint, compare against the first key of the right half, and branch
into the two recursively built subtrees. -/
def build_search_tree (val : Nat) (otherwise : Nat)
    (cases_tree : List (Int × List Nat)) (bx : Builder)
    (acc : List (Int × Nat × List Nat)) :
    Builder × List (Int × Nat × List Nat) :=
  if cases_tree.length ≤ 3 then
    let (bx, acc) := cases_tree.reverse.foldl (cascadeStep val) (bx, acc)
    (bx.ins (.jump otherwise), acc)
  else
    let split_point := cases_tree.length / 2
    let left := cases_tree.take split_point
    let right := cases_tree.drop split_point
    let (left_ebb, bx) := bx.createEbb
    let (right_ebb, bx) := bx.createEbb
    -- `right[0].0`; `right` is non-empty since `split_point < length`.
    let pivot := match right with | [] => 0 | (k, _) :: _ => k
    let (v, bx) := bx.allocValue
    let bx := bx.ins (.icmpImm v .sge val pivot)
    let bx := bx.ins (.brnz v right_ebb)
    let bx := bx.ins (.jump left_ebb)
    let bx := bx.switchTo left_ebb
    let (bx, acc) := build_search_tree val otherwise left bx acc
    let bx := bx.switchTo right_ebb
    build_search_tree val otherwise right bx acc
termination_by cases_tree.length
decreasing_by
  all_goals simp [List.length_take, List.length_drop]
  all_goals omega

/-- One iteration of `build_jump_tables` (lines 110-121): create the jump
table from the run's EBBs in order, then fill the dispatch EBB with
`discr = iadd_imm val, -first_index; br_table discr, jt; jump otherwise`.
The immediate is the wrapping negation of the first key. -/
def jtStep (val : Nat) (otherwise : Nat) (bx : Builder)
    (c : Int × Nat × List Nat) : Builder :=
  let (first_index, jt_ebb, ebbs) := c
  let (jump_table, bx) := bx.createJumpTable ebbs
  let bx := bx.switchTo jt_ebb
  let (discr, bx) := bx.allocValue
  let bx := bx.ins (.iaddImm discr val (wrapI64 (-first_index)))
  let bx := bx.ins (.brTable discr jump_table)
  bx.ins (.jump otherwise)

/-- `Switch::build_jump_tables` (lines 104-122): process the recorded runs in
reverse order. -/
def build_jump_tables (val : Nat) (otherwise : Nat)
    (cases_and_jt_ebbs : List (Int × Nat × List Nat)) (bx : Builder) :
    Builder :=
  cases_and_jt_ebbs.reverse.foldl (jtStep val otherwise) bx

/-- The tail of `Switch::emit` after the optional zero-extension: clustering,
search tree, jump tables. -/
def emitTail (val : Nat) (otherwise : Nat)
    (cases : List (Int × Nat)) (bx : Builder) : Builder :=
  let cases_tree := build_cases_tree cases
  let (bx, cases_and_jt_ebbs) := build_search_tree val otherwise cases_tree bx []
  build_jump_tables val otherwise cases_and_jt_ebbs bx

/-- `Switch::emit` (lines 131-142).  `valTy` stands for
`bx.func.dfg.value_type(val)`.  Values of type `I8` or `I16` are first
zero-extended to `I32` (targets may not encode narrow compare-immediates);
all other values are used unchanged. -/
def emit (cases : List (Int × Nat)) (bx : Builder) (val : Nat)
    (valTy : Ty) (otherwise : Nat) : Builder :=
  let (val, bx) :=
    match valTy with
    | .i8 | .i16 =>
        let (v, bx) := bx.allocValue
        (v, bx.ins (.uextend v .i32 val))
    | _ => (val, bx)
  emitTail val otherwise cases bx

/-! Helper lemmas and theorems about the switch builder. -/

/-- All instructions inserted into any block of the builder. -/
def blocksInsts (bx : Builder) : List SwInst := bx.blocks.bind Prod.snd

/-- An `icmp_imm` comparison or `iadd_imm` offset computation takes `v` as
its argument; other instructions are unconstrained.  This is the sense in
which every comparison and every dispatch offset of the emitted switch
operates on a given value. -/
def cmpArgOk (v : Nat) : SwInst → Bool
  | .icmpImm _ _ a _ => a == v
  | .iaddImm _ a _ => a == v
  | _ => true

/-- Every comparison and offset computation in the builder takes `v`. -/
def CmpInv (v : Nat) (bx : Builder) : Prop :=
  ∀ i ∈ blocksInsts bx, cmpArgOk v i = true

theorem mem_appendIns (j : SwInst) (e : Nat) :
    ∀ (blocks : List (Nat × List SwInst)) (i : SwInst),
      i ∈ (appendIns blocks e j).bind Prod.snd →
      i ∈ blocks.bind Prod.snd ∨ i = j := by
  intro blocks
  induction blocks with
  | nil => intro i hi; simp [appendIns] at hi
  | cons p rest ih =>
      obtain ⟨p1, p2⟩ := p
      intro i hi
      simp only [appendIns] at hi
      by_cases hp : p1 = e
      · rw [if_pos hp] at hi
        simp only [List.cons_bind, List.mem_append, List.mem_singleton] at hi ⊢
        tauto
      · rw [if_neg hp] at hi
        simp only [List.cons_bind, List.mem_append] at hi ⊢
        rcases hi with hi | hi
        · exact Or.inl (Or.inl hi)
        · rcases ih i hi with h2 | h2
          · exact Or.inl (Or.inr h2)
          · exact Or.inr h2

theorem CmpInv.ins {v : Nat} {bx : Builder} {j : SwInst} (h : CmpInv v bx)
    (hj : cmpArgOk v j = true) : CmpInv v (bx.ins j) := by
  intro i hi
  rcases mem_appendIns j bx.cur bx.blocks i hi with hi | rfl
  · exact h i hi
  · exact hj

theorem CmpInv.createEbb {v : Nat} {bx : Builder} (h : CmpInv v bx) :
    CmpInv v bx.createEbb.2 := by
  intro i hi
  apply h i
  simp only [blocksInsts, Builder.createEbb] at hi ⊢
  simpa using hi

theorem CmpInv.allocValue {v : Nat} {bx : Builder} (h : CmpInv v bx) :
    CmpInv v bx.allocValue.2 := h

theorem CmpInv.switchTo {v : Nat} {bx : Builder} (h : CmpInv v bx) (e : Nat) :
    CmpInv v (bx.switchTo e) := h

theorem CmpInv.createJumpTable {v : Nat} {bx : Builder} (h : CmpInv v bx)
    (es : List Nat) : CmpInv v (bx.createJumpTable es).2 := h

theorem cascadeStep_cmpInv (val : Nat)
    (st : Builder × List (Int × Nat × List Nat)) (c : Int × List Nat)
    (h : CmpInv val st.1) : CmpInv val (cascadeStep val st c).1 := by
  obtain ⟨bx, acc⟩ := st
  obtain ⟨k, ebbs⟩ := c
  match ebbs with
  | [e] => exact (h.allocValue.ins (by simp [cmpArgOk])).ins (by simp [cmpArgOk])
  | [] =>
      exact (h.createEbb.allocValue.ins (by simp [cmpArgOk])).ins
        (by simp [cmpArgOk])
  | e1 :: e2 :: rest =>
      exact (h.createEbb.allocValue.ins (by simp [cmpArgOk])).ins
        (by simp [cmpArgOk])

theorem foldl_cascadeStep_cmpInv (val : Nat) :
    ∀ (l : List (Int × List Nat)) (st : Builder × List (Int × Nat × List Nat)),
      CmpInv val st.1 → CmpInv val (l.foldl (cascadeStep val) st).1 := by
  intro l
  induction l with
  | nil => intro st h; exact h
  | cons c rest ih => intro st h; exact ih _ (cascadeStep_cmpInv val st c h)

theorem build_search_tree_cmpInv (val oth : Nat) :
    ∀ (n : Nat) (clusters : List (Int × List Nat)), clusters.length ≤ n →
      ∀ (bx : Builder) (acc : List (Int × Nat × List Nat)), CmpInv val bx →
        CmpInv val (build_search_tree val oth clusters bx acc).1 := by
  intro n
  induction n with
  | zero =>
      intro clusters hlen bx acc hinv
      obtain rfl : clusters = [] := List.length_eq_zero.1 (Nat.le_zero.1 hlen)
      rw [build_search_tree,
        if_pos (by decide : ([] : List (Int × List Nat)).length ≤ 3)]
      have h := foldl_cascadeStep_cmpInv val
        ([] : List (Int × List Nat)).reverse (bx, acc) hinv
      exact CmpInv.ins h (by simp [cmpArgOk] : cmpArgOk val (.jump oth) = true)
  | succ n ih =>
      intro clusters hlen bx acc hinv
      rw [build_search_tree]
      by_cases h3 : clusters.length ≤ 3
      · rw [if_pos h3]
        have h := foldl_cascadeStep_cmpInv val clusters.reverse (bx, acc) hinv
        exact CmpInv.ins h
          (by simp [cmpArgOk] : cmpArgOk val (.jump oth) = true)
      · rw [if_neg h3]
        exact ih (clusters.drop (clusters.length / 2))
          (by simp only [List.length_drop]; omega) _ _
          (CmpInv.switchTo
            (ih (clusters.take (clusters.length / 2))
              (by simp only [List.length_take]; omega) _ _
              (CmpInv.switchTo
                (((hinv.createEbb.createEbb.allocValue.ins
                  (by simp [cmpArgOk])).ins (by simp [cmpArgOk])).ins
                  (by simp [cmpArgOk])) _)) _)

theorem jtStep_cmpInv (val oth : Nat) (bx : Builder)
    (c : Int × Nat × List Nat) (h : CmpInv val bx) :
    CmpInv val (jtStep val oth bx c) := by
  obtain ⟨k, jt, ebbs⟩ := c
  exact (((CmpInv.switchTo (h.createJumpTable ebbs) jt).allocValue.ins
    (by simp [cmpArgOk])).ins (by simp [cmpArgOk])).ins (by simp [cmpArgOk])

theorem build_jump_tables_cmpInv (val oth : Nat) :
    ∀ (l : List (Int × Nat × List Nat)) (bx : Builder), CmpInv val bx →
      CmpInv val (l.foldl (jtStep val oth) bx) := by
  intro l
  induction l with
  | nil => intro bx h; exact h
  | cons c rest ih => intro bx h; exact ih _ (jtStep_cmpInv val oth bx c h)

theorem emitTail_cmpInv (val oth : Nat) (cases : List (Int × Nat))
    (bx : Builder) (h : CmpInv val bx) : CmpInv val (emitTail val oth cases bx) := by
  unfold emitTail build_jump_tables
  exact build_jump_tables_cmpInv val oth _ _
    (build_search_tree_cmpInv val oth (build_cases_tree cases).length _
      le_rfl _ _ h)

/-- C8: `Switch::emit` zero-extends a value of type narrower than 32 bits
(`I8`/`I16`) to `I32` before emitting anything else — the rest of the
pipeline (clustering, search tree, jump tables) then runs on the extension
result — and leaves a value of 32 bits or wider unchanged; in both cases
every `icmp_imm` comparison and every `iadd_imm` dispatch offset in the
emitted code takes that (possibly extended) value as its argument, provided
the builder held no comparison so far. -/
theorem emit_zero_extends_narrow (cases : List (Int × Nat)) (bx : Builder)
    (val : Nat) (valTy : Ty) (otherwise : Nat)
    (hbx : ∀ i ∈ blocksInsts bx, cmpArgOk
      (if valTy.bits < 32 then bx.nextValue else val) i = true) :
    emit cases bx val valTy otherwise =
      emitTail (if valTy.bits < 32 then bx.nextValue else val) otherwise cases
        (if valTy.bits < 32 then
          bx.allocValue.2.ins (.uextend bx.nextValue .i32 val)
        else bx) ∧
    ∀ i ∈ blocksInsts (emit cases bx val valTy otherwise),
      cmpArgOk (if valTy.bits < 32 then bx.nextValue else val) i = true := by
  have hsplit : emit cases bx val valTy otherwise =
      emitTail (if valTy.bits < 32 then bx.nextValue else val) otherwise cases
        (if valTy.bits < 32 then
          bx.allocValue.2.ins (.uextend bx.nextValue .i32 val)
        else bx) := by
    cases valTy <;> rfl
  refine ⟨hsplit, ?_⟩
  rw [hsplit]
  by_cases hn : valTy.bits < 32
  · simp only [if_pos hn] at hbx ⊢
    have hb : CmpInv bx.nextValue bx := hbx
    exact emitTail_cmpInv _ _ _ _ (hb.allocValue.ins (by simp [cmpArgOk]))
  · simp only [if_neg hn] at hbx ⊢
    have hb : CmpInv val bx := hbx
    exact emitTail_cmpInv _ _ _ _ hb

/-- Witness for C8: extending an `I8` switch value and leaving an `I32` one
unchanged, on a one-entry switch. -/
theorem emit_zero_extends_narrow_witness :
    (∀ i ∈ blocksInsts
      ({ blocks := [(0, [])], cur := 0, nextEbb := 2, nextValue := 1,
         jumpTables := [] } : Builder), cmpArgOk 1 i = true) ∧
    emit [(0, 1)]
        { blocks := [(0, [])], cur := 0, nextEbb := 2, nextValue := 1,
          jumpTables := [] } 0 .i8 0 =
      emitTail 1 0 [(0, 1)]
        (({ blocks := [(0, [])], cur := 0, nextEbb := 2, nextValue := 1,
            jumpTables := [] } : Builder).allocValue.2.ins
          (.uextend 1 .i32 0)) :=
  ⟨by decide,
    (emit_zero_extends_narrow [(0, 1)]
      { blocks := [(0, [])], cur := 0, nextEbb := 2, nextValue := 1,
        jumpTables := [] } 0 .i8 0 (by decide)).1⟩

/-! Determinism of the switch builder: the entries live in a `HashMap`, so
two runs may hand `build_cases_tree` the same entries in different orders;
the sort by key makes the result independent of that order. -/

instance keyLeTotal : IsTotal (Int × Nat) (fun a b => a.1 ≤ b.1) :=
  ⟨fun a b => le_total a.1 b.1⟩

instance keyLeTrans : IsTrans (Int × Nat) (fun a b => a.1 ≤ b.1) :=
  ⟨fun _ _ _ => le_trans⟩

theorem sorted_eq_of_perm_of_nodupKeys :
    ∀ (l1 l2 : List (Int × Nat)), l1.Perm l2 →
      l1.Sorted (fun a b => a.1 ≤ b.1) → l2.Sorted (fun a b => a.1 ≤ b.1) →
      (l1.map Prod.fst).Nodup → l1 = l2 := by
  intro l1
  induction l1 with
  | nil => intro l2 hp _ _ _; exact (List.Perm.eq_nil hp.symm).symm
  | cons a t1 ih =>
      intro l2 hp hs1 hs2 hnd
      simp only [List.map_cons, List.nodup_cons] at hnd
      cases l2 with
      | nil => exact absurd (List.Perm.eq_nil hp) (by simp)
      | cons b t2 =>
          have hab : a = b := by
            have ha2 : a ∈ b :: t2 := hp.subset (List.mem_cons_self a t1)
            have hb1 : b ∈ a :: t1 := hp.symm.subset (List.mem_cons_self b t2)
            rcases List.mem_cons.1 ha2 with h | ha2
            · exact h
            rcases List.mem_cons.1 hb1 with h | hb1
            · exact h.symm
            have h1 : a.1 ≤ b.1 := (List.sorted_cons.1 hs1).1 b hb1
            have h2 : b.1 ≤ a.1 := (List.sorted_cons.1 hs2).1 a ha2
            have hmem : a.1 ∈ t1.map Prod.fst := by
              rw [le_antisymm h1 h2]
              exact List.mem_map_of_mem Prod.fst hb1
            exact absurd hmem hnd.1
          subst hab
          rw [ih t2 hp.cons_inv (List.sorted_cons.1 hs1).2
            (List.sorted_cons.1 hs2).2 hnd.2]

theorem sortByKey_eq_of_perm (l1 l2 : List (Int × Nat)) (hp : l1.Perm l2)
    (hnd : (l1.map Prod.fst).Nodup) : sortByKey l1 = sortByKey l2 := by
  apply sorted_eq_of_perm_of_nodupKeys
  · exact (List.perm_insertionSort _ l1).trans
      (hp.trans (List.perm_insertionSort _ l2).symm)
  · exact List.sorted_insertionSort _ l1
  · exact List.sorted_insertionSort _ l2
  · exact (((List.perm_insertionSort _ l1).map Prod.fst).nodup_iff).2 hnd

/-- C9: `Switch::emit` is deterministic in the entry set.  Two runs handed
the same entry-to-EBB mapping — case lists that are permutations of each
other, with the distinct keys a `HashMap` guarantees — and the same
`otherwise` EBB, starting from the same builder state, produce the
identical builder: sorting by key before clustering erases the hash-map
iteration order. -/
theorem emit_deterministic (cases1 cases2 : List (Int × Nat)) (bx : Builder)
    (val : Nat) (valTy : Ty) (otherwise : Nat) (hp : cases1.Perm cases2)
    (hnd : (cases1.map Prod.fst).Nodup) :
    emit cases1 bx val valTy otherwise = emit cases2 bx val valTy otherwise := by
  have hct : build_cases_tree cases1 = build_cases_tree cases2 := by
    unfold build_cases_tree
    rw [sortByKey_eq_of_perm cases1 cases2 hp hnd]
  have htail : ∀ v b, emitTail v otherwise cases1 b =
      emitTail v otherwise cases2 b := by
    intro v b
    simp only [emitTail, hct]
  cases valTy <;> exact htail _ _

/-- Witness for C9: two iteration orders of a two-entry switch. -/
theorem emit_deterministic_witness :
    ([((1 : Int), (10 : Nat)), (0, 20)].Perm [(0, 20), (1, 10)] ∧
      ([((1 : Int), (10 : Nat)), (0, 20)].map Prod.fst).Nodup) ∧
    emit [((1 : Int), (10 : Nat)), (0, 20)]
        { blocks := [(0, [])], cur := 0, nextEbb := 3, nextValue := 1,
          jumpTables := [] } 0 .i32 0 =
      emit [(0, 20), (1, 10)]
        { blocks := [(0, [])], cur := 0, nextEbb := 3, nextValue := 1,
          jumpTables := [] } 0 .i32 0 :=
  ⟨⟨by decide, by decide⟩,
    emit_deterministic [((1 : Int), (10 : Nat)), (0, 20)] [(0, 20), (1, 10)]
      { blocks := [(0, [])], cur := 0, nextEbb := 3, nextValue := 1,
        jumpTables := [] } 0 .i32 0 (by decide) (by decide)⟩

/-! Jump-table construction: each recorded run becomes one jump table and a
filled dispatch EBB. -/

theorem lookupA_appendIns_ne (q e : Nat) (h : q ≠ e) :
    ∀ (blocks : List (Nat × List SwInst)) (j : SwInst),
      Legalizer.lookupA (appendIns blocks e j) q =
        Legalizer.lookupA blocks q := by
  intro blocks
  induction blocks with
  | nil => intro j; rfl
  | cons p rest ih =>
      obtain ⟨p1, p2⟩ := p
      intro j
      by_cases hp : p1 = e
      · rw [appendIns, if_pos hp, Legalizer.lookupA, Legalizer.lookupA,
          if_neg (hp ▸ (fun hq => h hq.symm)), if_neg (hp ▸ (fun hq => h hq.symm))]
      · rw [appendIns, if_neg hp, Legalizer.lookupA, Legalizer.lookupA]
        by_cases hq : p1 = q
        · rw [if_pos hq, if_pos hq]
        · rw [if_neg hq, if_neg hq, ih j]

theorem lookupA_appendIns_self (e : Nat) :
    ∀ (blocks : List (Nat × List SwInst)) (j : SwInst) (l : List SwInst),
      Legalizer.lookupA blocks e = some l →
      Legalizer.lookupA (appendIns blocks e j) e = some (l ++ [j]) := by
  intro blocks
  induction blocks with
  | nil => intro j l h; exact absurd h (by simp [Legalizer.lookupA])
  | cons p rest ih =>
      obtain ⟨p1, p2⟩ := p
      intro j l h
      rw [Legalizer.lookupA] at h
      by_cases hp : p1 = e
      · rw [if_pos hp] at h
        rw [appendIns, if_pos hp, Legalizer.lookupA, if_pos hp,
          Option.some_inj.1 h]
      · rw [if_neg hp] at h
        rw [appendIns, if_neg hp, Legalizer.lookupA, if_neg hp, ih j l h]

theorem foldl_jtStep_untouched (val oth : Nat) :
    ∀ (m : List (Int × Nat × List Nat)) (bx : Builder) (q : Nat),
      q ∉ m.map (fun c => c.2.1) →
      Legalizer.lookupA ((m.foldl (jtStep val oth) bx).blocks) q =
        Legalizer.lookupA bx.blocks q := by
  intro m
  induction m with
  | nil => intro bx q _; rfl
  | cons c rest ih =>
      obtain ⟨k, e, ebbs⟩ := c
      intro bx q hq
      simp only [List.map_cons, List.mem_cons, not_or] at hq
      rw [List.foldl_cons, ih _ q (by simpa using hq.2)]
      show Legalizer.lookupA (jtStep val oth bx (k, e, ebbs)).blocks q = _
      rw [show (jtStep val oth bx (k, e, ebbs)).blocks =
        appendIns (appendIns (appendIns bx.blocks e
          (.iaddImm bx.nextValue val (wrapI64 (-k)))) e
          (.brTable bx.nextValue bx.jumpTables.length)) e (.jump oth) from rfl]
      rw [lookupA_appendIns_ne q e hq.1, lookupA_appendIns_ne q e hq.1,
        lookupA_appendIns_ne q e hq.1]

theorem foldl_jtStep_spec (val oth : Nat) :
    ∀ (m : List (Int × Nat × List Nat)) (bx : Builder),
      (m.map (fun c => c.2.1)).Nodup →
      (∀ c ∈ m, Legalizer.lookupA bx.blocks c.2.1 = some []) →
      (m.foldl (jtStep val oth) bx).jumpTables =
          bx.jumpTables ++ m.map (fun c => c.2.2) ∧
      ∀ j (hj : j < m.length),
        Legalizer.lookupA ((m.foldl (jtStep val oth) bx).blocks) m[j].2.1 =
          some [.iaddImm (bx.nextValue + j) val (wrapI64 (-m[j].1)),
                .brTable (bx.nextValue + j) (bx.jumpTables.length + j),
                .jump oth] := by
  intro m
  induction m with
  | nil =>
      intro bx _ _
      refine ⟨by simp, ?_⟩
      intro j hj
      exact absurd hj (by simp)
  | cons c rest ih =>
      obtain ⟨k, e, ebbs⟩ := c
      intro bx hnd hempty
      simp only [List.map_cons, List.nodup_cons] at hnd
      have hbx1 : jtStep val oth bx (k, e, ebbs) =
          { blocks := appendIns (appendIns (appendIns bx.blocks e
              (.iaddImm bx.nextValue val (wrapI64 (-k)))) e
              (.brTable bx.nextValue bx.jumpTables.length)) e (.jump oth),
            cur := e, nextEbb := bx.nextEbb, nextValue := bx.nextValue + 1,
            jumpTables := bx.jumpTables ++ [ebbs] } := rfl
      have hblock1 : Legalizer.lookupA
          (jtStep val oth bx (k, e, ebbs)).blocks e =
          some [.iaddImm bx.nextValue val (wrapI64 (-k)),
                .brTable bx.nextValue bx.jumpTables.length, .jump oth] := by
        rw [hbx1]
        have h0 := hempty (k, e, ebbs) (List.mem_cons_self _ _)
        have h1 := lookupA_appendIns_self e bx.blocks
          (.iaddImm bx.nextValue val (wrapI64 (-k))) [] h0
        have h2 := lookupA_appendIns_self e _
          (.brTable bx.nextValue bx.jumpTables.length) _ h1
        have h3 := lookupA_appendIns_self e _ (.jump oth) _ h2
        exact h3
      have hrest : ∀ c' ∈ rest,
          Legalizer.lookupA (jtStep val oth bx (k, e, ebbs)).blocks c'.2.1 =
            some [] := by
        intro c' hc'
        have hne : c'.2.1 ≠ e := by
          intro hcontra
          exact hnd.1 (by
            rw [show e = c'.2.1 from hcontra.symm]
            exact List.mem_map_of_mem _ hc')
        rw [hbx1]
        rw [lookupA_appendIns_ne _ e hne, lookupA_appendIns_ne _ e hne,
          lookupA_appendIns_ne _ e hne]
        exact hempty c' (List.mem_cons_of_mem _ hc')
      obtain ⟨ihjt, ihblk⟩ := ih (jtStep val oth bx (k, e, ebbs)) hnd.2 hrest
      constructor
      · rw [List.foldl_cons, ihjt, hbx1]
        simp [List.append_assoc]
      · intro j hj
        match j with
        | 0 =>
            rw [List.foldl_cons]
            show Legalizer.lookupA _ e = _
            rw [foldl_jtStep_untouched val oth rest _ e
              (by simpa using hnd.1), hblock1]
            simp
        | j + 1 =>
            rw [List.foldl_cons]
            have hj' : j < rest.length := by
              simpa [Nat.succ_lt_succ_iff] using hj
            have hthis := ihblk j hj'
            simp only [List.getElem_cons_succ]
            rw [hthis,
              show (jtStep val oth bx (k, e, ebbs)).nextValue =
                bx.nextValue + 1 from rfl,
              show (jtStep val oth bx (k, e, ebbs)).jumpTables.length =
                bx.jumpTables.length + 1 from by rw [hbx1]; simp,
              show bx.nextValue + 1 + j = bx.nextValue + (j + 1) from by omega,
              show bx.jumpTables.length + 1 + j =
                bx.jumpTables.length + (j + 1) from by omega]

/-- C7: for every recorded run, `build_jump_tables` creates exactly one jump
table holding the run's EBBs in key order, and fills the run's dispatch EBB
with `discr = iadd_imm val, -first_index; br_table discr, jt; jump otherwise`
— where the `iadd_imm` immediate is the wrapping negation of the first key,
so that the addition computes `val - first_index` exactly modulo `2^64` for
every `i64` first key, including `i64::MIN`.  Hypotheses: the dispatch EBBs
are distinct and start out empty, as `build_search_tree` guarantees by
creating each as a fresh EBB. -/
theorem build_jump_tables_runs (val oth : Nat)
    (l : List (Int × Nat × List Nat)) (bx : Builder)
    (hnd : (l.reverse.map (fun c => c.2.1)).Nodup)
    (hempty : ∀ c ∈ l, Legalizer.lookupA bx.blocks c.2.1 = some []) :
    ((build_jump_tables val oth l bx).jumpTables =
        bx.jumpTables ++ l.reverse.map (fun c => c.2.2) ∧
      ∀ j (hj : j < l.reverse.length),
        Legalizer.lookupA ((build_jump_tables val oth l bx).blocks)
            l.reverse[j].2.1 =
          some [.iaddImm (bx.nextValue + j) val (wrapI64 (-(l.reverse[j].1))),
                .brTable (bx.nextValue + j) (bx.jumpTables.length + j),
                .jump oth]) ∧
    ∀ (k x : Int), (x + wrapI64 (-k)) % 2 ^ 64 = (x - k) % 2 ^ 64 := by
  constructor
  · exact foldl_jtStep_spec val oth l.reverse bx hnd
      (fun c hc => hempty c (List.mem_reverse.1 hc))
  · intro k x
    unfold wrapI64
    rw [show (2 : Int) ^ 64 = 18446744073709551616 from by norm_num,
      show (2 : Int) ^ 63 = 9223372036854775808 from by norm_num]
    omega

/-- Witness for C7: two runs, including one whose first key is `i64::MIN`. -/
theorem build_jump_tables_runs_witness :
    ((([((-9223372036854775808 : Int), (5 : Nat), [7, 8]),
        (1, 6, [1, 2, 3])] : List (Int × Nat × List Nat)).reverse.map
          (fun c => c.2.1)).Nodup ∧
      ∀ c ∈ ([((-9223372036854775808 : Int), (5 : Nat), [7, 8]),
          (1, 6, [1, 2, 3])] : List (Int × Nat × List Nat)),
        Legalizer.lookupA
          ({ blocks := [(5, []), (6, [])], cur := 0, nextEbb := 9,
             nextValue := 3, jumpTables := [] } : Builder).blocks c.2.1 =
          some []) ∧
    (build_jump_tables 0 4
        [((-9223372036854775808 : Int), (5 : Nat), [7, 8]), (1, 6, [1, 2, 3])]
        { blocks := [(5, []), (6, [])], cur := 0, nextEbb := 9,
          nextValue := 3, jumpTables := [] }).jumpTables =
      [[1, 2, 3], [7, 8]] ∧
    (∀ (k x : Int), (x + wrapI64 (-k)) % 2 ^ 64 = (x - k) % 2 ^ 64) :=
  ⟨⟨by decide, by decide⟩,
    by
      have h := build_jump_tables_runs 0 4
        [((-9223372036854775808 : Int), (5 : Nat), [7, 8]), (1, 6, [1, 2, 3])]
        { blocks := [(5, []), (6, [])], cur := 0, nextEbb := 9,
          nextValue := 3, jumpTables := [] } (by decide) (by decide)
      exact ⟨h.1.1, h.2⟩⟩

/-! Clustering: `build_cases_tree` sorts the entries and groups them into
maximal runs of consecutive keys. -/

theorem lookupA_append_left {α : Type} (q : Nat) :
    ∀ (l1 l2 : List (Nat × α)) (x : α), Legalizer.lookupA l1 q = some x →
      Legalizer.lookupA (l1 ++ l2) q = some x := by
  intro l1
  induction l1 with
  | nil => intro l2 x h; exact absurd h (by simp [Legalizer.lookupA])
  | cons p rest ih =>
      obtain ⟨p1, p2⟩ := p
      intro l2 x h
      rw [Legalizer.lookupA] at h
      rw [List.cons_append, Legalizer.lookupA]
      by_cases hp : p1 = q
      · rwa [if_pos hp] at h ⊢
      · rw [if_neg hp] at h ⊢
        exact ih l2 x h

theorem lookupA_append_single_ne {α : Type} (q k : Nat) (h : q ≠ k) (x : α) :
    ∀ (l1 : List (Nat × α)),
      Legalizer.lookupA (l1 ++ [(k, x)]) q = Legalizer.lookupA l1 q := by
  intro l1
  induction l1 with
  | nil =>
      simp only [List.nil_append, Legalizer.lookupA]
      rw [if_neg (fun hq => h hq.symm)]
  | cons p rest ih =>
      obtain ⟨p1, p2⟩ := p
      rw [List.cons_append, Legalizer.lookupA, Legalizer.lookupA]
      by_cases hp : p1 = q
      · rw [if_pos hp, if_pos hp]
      · rw [if_neg hp, if_neg hp, ih]

/-- The entries a cluster `(k, ebbs)` stands for: keys `k, k+1, …` paired
with the run's EBBs. -/
def runEntries : Int → List Nat → List (Int × Nat)
  | _, [] => []
  | k, e :: t => (k, e) :: runEntries (k + 1) t

/-- Flatten a cluster list back into the entry list it represents. -/
def clusterJoin : List (Int × List Nat) → List (Int × Nat)
  | [] => []
  | c :: l => runEntries c.1 c.2 ++ clusterJoin l

theorem runEntries_append :
    ∀ (l : List Nat) (k : Int) (x : Nat),
      runEntries k (l ++ [x]) = runEntries k l ++ [(k + l.length, x)] := by
  intro l
  induction l with
  | nil => intro k x; simp [runEntries]
  | cons e t ih =>
      intro k x
      rw [List.cons_append, runEntries, runEntries, ih, List.cons_append]
      have : k + 1 + (t.length : Int) = k + ((e :: t).length : Int) := by
        simp [List.length_cons]
        omega
      rw [this]

theorem clusterRuns_spec :
    ∀ (rest : List (Int × Nat)) (last : Int) (cur : Int × List Nat),
      List.Chain (fun a b : Int => a < b) last (rest.map Prod.fst) →
      cur.2 ≠ [] →
      cur.1 + (cur.2.length : Int) = last + 1 →
      clusterJoin (clusterRuns last cur rest) =
          runEntries cur.1 cur.2 ++ rest ∧
      List.Chain' (fun c d => c.1 + (c.2.length : Int) < d.1)
        (clusterRuns last cur rest) ∧
      (∀ c ∈ clusterRuns last cur rest, c.2 ≠ []) ∧
      (clusterRuns last cur rest).head?.map Prod.fst = some cur.1 := by
  intro rest
  induction rest with
  | nil =>
      intro last cur _ hne _
      refine ⟨by simp [clusterRuns, clusterJoin], by simp [clusterRuns], ?_,
        by simp [clusterRuns]⟩
      intro c hc
      simp only [clusterRuns, List.mem_singleton] at hc
      subst hc
      exact hne
  | cons p rest2 ih =>
      obtain ⟨index, ebb⟩ := p
      intro last cur hchain hne hinv
      simp only [List.map_cons, List.chain_cons] at hchain
      by_cases hgap : index > last + 1
      · rw [clusterRuns, if_pos hgap]
        obtain ⟨ha, hb, hc, hd⟩ := ih index (index, [ebb]) hchain.2 (by simp)
          (by simp)
        refine ⟨?_, ?_, ?_, by simp⟩
        · rw [clusterJoin, ha]
          simp [runEntries]
        · rw [List.chain'_cons']
          refine ⟨?_, hb⟩
          intro b2 hbmem
          rcases hh : (clusterRuns index (index, [ebb]) rest2).head? with _ | b0
          · rw [hh] at hbmem; simp at hbmem
          · rw [hh] at hbmem hd
            simp only [Option.mem_some_iff] at hbmem
            simp only [Option.map_some'] at hd
            have hb1 : b2.1 = index := by
              rw [← hbmem]
              exact Option.some_inj.1 hd
            rw [hb1]
            omega
        · intro c hcmem
          rcases List.mem_cons.1 hcmem with rfl | hcmem
          · exact hne
          · exact hc c hcmem
      · have hidx : index = last + 1 := by omega
        rw [clusterRuns, if_neg hgap]
        have hkey : cur.1 + (cur.2.length : Int) = index := by omega
        obtain ⟨ha, hb, hc, hd⟩ := ih index (cur.1, cur.2 ++ [ebb]) hchain.2
          (by simp)
          (by
            simp only [List.length_append, List.length_singleton]
            push_cast
            omega)
        refine ⟨?_, hb, hc, by rw [hd]⟩
        rw [ha]
        simp only [runEntries_append, hkey]
        simp [List.append_assoc]

theorem build_cases_tree_spec (cases : List (Int × Nat))
    (hnd : (cases.map Prod.fst).Nodup) :
    clusterJoin (build_cases_tree cases) = sortByKey cases ∧
    List.Chain' (fun c d => c.1 + (c.2.length : Int) < d.1)
      (build_cases_tree cases) ∧
    ∀ c ∈ build_cases_tree cases, c.2 ≠ [] := by
  have hsorted : (sortByKey cases).Sorted (fun a b => a.1 ≤ b.1) :=
    List.sorted_insertionSort _ _
  have hndk : ((sortByKey cases).map Prod.fst).Nodup := by
    rw [sortByKey]
    exact (((List.perm_insertionSort (fun a b : Int × Nat => a.1 ≤ b.1)
      cases).map Prod.fst).nodup_iff).2 hnd
  have hlt : (sortByKey cases).Pairwise (fun a b => a.1 < b.1) := by
    have h2 : (sortByKey cases).Pairwise (fun a b => a.1 ≠ b.1) :=
      (List.pairwise_map).1 hndk
    exact (hsorted.and h2).imp (fun h => lt_of_le_of_ne h.1 h.2)
  rcases hs : sortByKey cases with _ | ⟨⟨k, e⟩, rest⟩
  · simp [build_cases_tree, hs, clusterJoin]
  · rw [hs] at hlt
    have hchain : List.Chain (fun a b : Int => a < b) k (rest.map Prod.fst) := by
      have hp : List.Pairwise (fun a b : Int => a < b)
          (((k, e) :: rest).map Prod.fst) := (List.pairwise_map).2 hlt
      rw [List.map_cons] at hp
      exact (List.chain_iff_pairwise).2 hp
    obtain ⟨ha, hb, hc, _⟩ := clusterRuns_spec rest k (k, [e]) hchain
      (by simp) (by simp)
    have hbt : build_cases_tree cases = clusterRuns k (k, [e]) rest := by
      unfold build_cases_tree
      rw [hs]
    rw [hbt]
    refine ⟨?_, hb, hc⟩
    rw [ha]
    simp [runEntries]

/-! The comparison cascade of `build_search_tree`'s base case, described as
pure data: the instructions appended to the current block and the runs
recorded for `build_jump_tables`. -/

/-- The instructions the cascade (lines 68-80) appends to the current block
while walking a cluster list: an equality test per singleton cluster, a
signed lower-bound test per run (branching to the next fresh EBB). `v` and
`nebb` are the fresh-value and fresh-EBB counters. -/
def cascadeInsts (val : Nat) : List (Int × List Nat) → Nat → Nat → List SwInst
  | [], _, _ => []
  | (k, [e]) :: rest, v, nebb =>
      .icmpImm v .eq val k :: .brnz v e :: cascadeInsts val rest (v + 1) nebb
  | (k, _) :: rest, v, nebb =>
      .icmpImm v .sge val k :: .brnz v nebb ::
        cascadeInsts val rest (v + 1) (nebb + 1)

/-- The `(first_index, jt_ebb, ebbs)` entries the cascade records, in
processing order. -/
def cascadeAcc : List (Int × List Nat) → Nat → List (Int × Nat × List Nat)
  | [], _ => []
  | (_, [_]) :: rest, nebb => cascadeAcc rest nebb
  | (k, ebbs) :: rest, nebb => (k, nebb, ebbs) :: cascadeAcc rest (nebb + 1)

/-- The builder state after the cascade processes a run cluster `(k, ebbs)`
(fresh dispatch EBB, `icmp_imm sge` + `brnz` into the current block). -/
def runStepB (val : Nat) (bx : Builder) (k : Int) : Builder :=
  { bx with
      nextEbb := bx.nextEbb + 1,
      nextValue := bx.nextValue + 1,
      blocks := appendIns (appendIns (bx.blocks ++ [(bx.nextEbb, [])]) bx.cur
        (.icmpImm bx.nextValue .sge val k)) bx.cur
        (.brnz bx.nextValue bx.nextEbb) }

/-- The builder state after the cascade processes a singleton cluster
`(k, [e])` (`icmp_imm eq` + `brnz` into the current block). -/
def eqStepB (val : Nat) (bx : Builder) (k : Int) (e : Nat) : Builder :=
  { bx with
      nextValue := bx.nextValue + 1,
      blocks := appendIns (appendIns bx.blocks bx.cur
        (.icmpImm bx.nextValue .eq val k)) bx.cur (.brnz bx.nextValue e) }

theorem runStepB_cur (val : Nat) (bx : Builder) (k : Int) :
    (runStepB val bx k).cur = bx.cur := rfl

theorem runStepB_nextValue (val : Nat) (bx : Builder) (k : Int) :
    (runStepB val bx k).nextValue = bx.nextValue + 1 := rfl

theorem runStepB_nextEbb (val : Nat) (bx : Builder) (k : Int) :
    (runStepB val bx k).nextEbb = bx.nextEbb + 1 := rfl

theorem runStepB_blocks (val : Nat) (bx : Builder) (k : Int) :
    (runStepB val bx k).blocks =
      appendIns (appendIns (bx.blocks ++ [(bx.nextEbb, [])]) bx.cur
        (.icmpImm bx.nextValue .sge val k)) bx.cur
        (.brnz bx.nextValue bx.nextEbb) := rfl

theorem eqStepB_cur (val : Nat) (bx : Builder) (k : Int) (e : Nat) :
    (eqStepB val bx k e).cur = bx.cur := rfl

theorem eqStepB_nextValue (val : Nat) (bx : Builder) (k : Int) (e : Nat) :
    (eqStepB val bx k e).nextValue = bx.nextValue + 1 := rfl

theorem eqStepB_nextEbb (val : Nat) (bx : Builder) (k : Int) (e : Nat) :
    (eqStepB val bx k e).nextEbb = bx.nextEbb := rfl

theorem eqStepB_blocks (val : Nat) (bx : Builder) (k : Int) (e : Nat) :
    (eqStepB val bx k e).blocks =
      appendIns (appendIns bx.blocks bx.cur
        (.icmpImm bx.nextValue .eq val k)) bx.cur (.brnz bx.nextValue e) := rfl

theorem foldl_cascadeStep_desc (val : Nat) :
    ∀ (l : List (Int × List Nat)) (bx : Builder)
      (acc : List (Int × Nat × List Nat)) (l0 : List SwInst),
      Legalizer.lookupA bx.blocks bx.cur = some l0 → bx.cur < bx.nextEbb →
      (l.foldl (cascadeStep val) (bx, acc)).1.cur = bx.cur ∧
      Legalizer.lookupA (l.foldl (cascadeStep val) (bx, acc)).1.blocks bx.cur =
        some (l0 ++ cascadeInsts val l bx.nextValue bx.nextEbb) ∧
      (l.foldl (cascadeStep val) (bx, acc)).2 = acc ++ cascadeAcc l bx.nextEbb := by
  intro l
  induction l with
  | nil =>
      intro bx acc l0 h0 _
      exact ⟨rfl, by simpa [cascadeInsts] using h0, by simp [cascadeAcc]⟩
  | cons c rest ih =>
      obtain ⟨k, ebbs⟩ := c
      intro bx acc l0 h0 hlt
      rcases ebbs with _ | ⟨e1, _ | ⟨e2, t⟩⟩
      · rw [List.foldl_cons, show cascadeStep val (bx, acc) (k, []) =
          (runStepB val bx k, acc ++ [(k, bx.nextEbb, [])]) from rfl]
        obtain ⟨ic, il, ia⟩ := ih (runStepB val bx k)
          (acc ++ [(k, bx.nextEbb, [])])
          ((l0 ++ [.icmpImm bx.nextValue .sge val k]) ++
            [.brnz bx.nextValue bx.nextEbb])
          (by
            rw [runStepB_blocks, runStepB_cur]
            exact lookupA_appendIns_self _ _ _ _
              (lookupA_appendIns_self _ _ _ _
                (lookupA_append_left _ _ _ _ h0)))
          (by rw [runStepB_cur, runStepB_nextEbb]; omega)
        simp only [runStepB_cur, runStepB_nextValue, runStepB_nextEbb]
          at ic il ia
        refine ⟨ic, ?_, ?_⟩
        · rw [il]
          simp [cascadeInsts, List.append_assoc]
        · rw [ia]
          simp [cascadeAcc, List.append_assoc]
      · rw [List.foldl_cons, show cascadeStep val (bx, acc) (k, [e1]) =
          (eqStepB val bx k e1, acc) from rfl]
        obtain ⟨ic, il, ia⟩ := ih (eqStepB val bx k e1) acc
          ((l0 ++ [.icmpImm bx.nextValue .eq val k]) ++ [.brnz bx.nextValue e1])
          (by
            rw [eqStepB_blocks, eqStepB_cur]
            exact lookupA_appendIns_self _ _ _ _
              (lookupA_appendIns_self _ _ _ _ h0))
          (by rw [eqStepB_cur, eqStepB_nextEbb]; omega)
        simp only [eqStepB_cur, eqStepB_nextValue, eqStepB_nextEbb]
          at ic il ia
        refine ⟨ic, ?_, ?_⟩
        · rw [il]
          simp [cascadeInsts, List.append_assoc]
        · rw [ia]
          simp [cascadeAcc]
      · rw [List.foldl_cons, show cascadeStep val (bx, acc) (k, e1 :: e2 :: t) =
          (runStepB val bx k, acc ++ [(k, bx.nextEbb, e1 :: e2 :: t)]) from rfl]
        obtain ⟨ic, il, ia⟩ := ih (runStepB val bx k)
          (acc ++ [(k, bx.nextEbb, e1 :: e2 :: t)])
          ((l0 ++ [.icmpImm bx.nextValue .sge val k]) ++
            [.brnz bx.nextValue bx.nextEbb])
          (by
            rw [runStepB_blocks, runStepB_cur]
            exact lookupA_appendIns_self _ _ _ _
              (lookupA_appendIns_self _ _ _ _
                (lookupA_append_left _ _ _ _ h0)))
          (by rw [runStepB_cur, runStepB_nextEbb]; omega)
        simp only [runStepB_cur, runStepB_nextValue, runStepB_nextEbb]
          at ic il ia
        refine ⟨ic, ?_, ?_⟩
        · rw [il]
          simp [cascadeInsts, List.append_assoc]
        · rw [ia]
          simp [cascadeAcc, List.append_assoc]

/-! Frame properties: the cascade and the search tree never touch a block
that is neither the current block nor one they create. -/

theorem foldl_cascadeStep_frame (val : Nat) :
    ∀ (l : List (Int × List Nat)) (bx : Builder)
      (acc : List (Int × Nat × List Nat)) (q : Nat), q ≠ bx.cur →
      q < bx.nextEbb →
      (l.foldl (cascadeStep val) (bx, acc)).1.cur = bx.cur ∧
      bx.nextEbb ≤ (l.foldl (cascadeStep val) (bx, acc)).1.nextEbb ∧
      Legalizer.lookupA (l.foldl (cascadeStep val) (bx, acc)).1.blocks q =
        Legalizer.lookupA bx.blocks q := by
  intro l
  induction l with
  | nil => intro bx acc q _ _; exact ⟨rfl, le_refl _, rfl⟩
  | cons c rest ih =>
      obtain ⟨k, ebbs⟩ := c
      intro bx acc q hq hlt
      rcases ebbs with _ | ⟨e1, _ | ⟨e2, t⟩⟩
      · rw [List.foldl_cons, show cascadeStep val (bx, acc) (k, []) =
          (runStepB val bx k, acc ++ [(k, bx.nextEbb, [])]) from rfl]
        obtain ⟨ic, im, il⟩ := ih (runStepB val bx k)
          (acc ++ [(k, bx.nextEbb, [])]) q
          (by rw [runStepB_cur]; exact hq)
          (by rw [runStepB_nextEbb]; omega)
        simp only [runStepB_cur, runStepB_nextEbb, runStepB_blocks] at ic im il
        refine ⟨ic, by omega, ?_⟩
        rw [il, lookupA_appendIns_ne q bx.cur hq,
          lookupA_appendIns_ne q bx.cur hq,
          lookupA_append_single_ne q bx.nextEbb (Nat.ne_of_lt hlt)
            ([] : List SwInst)]
      · rw [List.foldl_cons, show cascadeStep val (bx, acc) (k, [e1]) =
          (eqStepB val bx k e1, acc) from rfl]
        obtain ⟨ic, im, il⟩ := ih (eqStepB val bx k e1) acc q
          (by rw [eqStepB_cur]; exact hq)
          (by rw [eqStepB_nextEbb]; exact hlt)
        simp only [eqStepB_cur, eqStepB_nextEbb, eqStepB_blocks] at ic im il
        refine ⟨ic, im, ?_⟩
        rw [il, lookupA_appendIns_ne q bx.cur hq,
          lookupA_appendIns_ne q bx.cur hq]
      · rw [List.foldl_cons, show cascadeStep val (bx, acc) (k, e1 :: e2 :: t) =
          (runStepB val bx k, acc ++ [(k, bx.nextEbb, e1 :: e2 :: t)]) from rfl]
        obtain ⟨ic, im, il⟩ := ih (runStepB val bx k)
          (acc ++ [(k, bx.nextEbb, e1 :: e2 :: t)]) q
          (by rw [runStepB_cur]; exact hq)
          (by rw [runStepB_nextEbb]; omega)
        simp only [runStepB_cur, runStepB_nextEbb, runStepB_blocks] at ic im il
        refine ⟨ic, by omega, ?_⟩
        rw [il, lookupA_appendIns_ne q bx.cur hq,
          lookupA_appendIns_ne q bx.cur hq,
          lookupA_append_single_ne q bx.nextEbb (Nat.ne_of_lt hlt)
            ([] : List SwInst)]

/-- The base-case equation of `build_search_tree` (lines 67-82): at most
three clusters produce the reversed cascade followed by `jump otherwise`. -/
theorem build_search_tree_le (val oth : Nat) (ct : List (Int × List Nat))
    (bx : Builder) (acc : List (Int × Nat × List Nat)) (h : ct.length ≤ 3) :
    build_search_tree val oth ct bx acc =
      ((ct.reverse.foldl (cascadeStep val) (bx, acc)).1.ins (.jump oth),
       (ct.reverse.foldl (cascadeStep val) (bx, acc)).2) := by
  rw [build_search_tree, if_pos h]

/-- The builder state from which the left subtree of `build_search_tree`'s
recursive case is built: two fresh EBBs, the pivot comparison and the two
branches in the current block, insertion point moved to the left EBB. -/
def splitStepB (val : Nat) (bx : Builder) (k2 : Int) : Builder :=
  Builder.switchTo
    (((bx.createEbb.2.createEbb.2.allocValue.2.ins
        (.icmpImm bx.nextValue .sge val k2)).ins
      (.brnz bx.nextValue (bx.nextEbb + 1))).ins (.jump bx.nextEbb))
    bx.nextEbb

theorem splitStepB_cur (val : Nat) (bx : Builder) (k2 : Int) :
    (splitStepB val bx k2).cur = bx.nextEbb := rfl

theorem splitStepB_nextEbb (val : Nat) (bx : Builder) (k2 : Int) :
    (splitStepB val bx k2).nextEbb = bx.nextEbb + 2 := rfl

theorem splitStepB_blocks (val : Nat) (bx : Builder) (k2 : Int) :
    (splitStepB val bx k2).blocks =
      appendIns (appendIns (appendIns
        ((bx.blocks ++ [(bx.nextEbb, [])]) ++ [(bx.nextEbb + 1, [])]) bx.cur
        (.icmpImm bx.nextValue .sge val k2)) bx.cur
        (.brnz bx.nextValue (bx.nextEbb + 1))) bx.cur (.jump bx.nextEbb) := rfl

/-- The recursive-case equation of `build_search_tree` (lines 83-101): with
more than three clusters and the right half starting at key `k2`, split at
the midpoint, branch on `icmp_imm sge val, k2`, and build the halves in the
two fresh EBBs. -/
theorem build_search_tree_gt (val oth : Nat) (ct : List (Int × List Nat))
    (bx : Builder) (acc : List (Int × Nat × List Nat)) (h : 3 < ct.length)
    (k2 : Int) (es : List Nat) (tl : List (Int × List Nat))
    (hdrop : ct.drop (ct.length / 2) = (k2, es) :: tl) :
    build_search_tree val oth ct bx acc =
      (fun r => build_search_tree val oth ((k2, es) :: tl)
          (Builder.switchTo r.1 (bx.nextEbb + 1)) r.2)
        (build_search_tree val oth (ct.take (ct.length / 2))
          (splitStepB val bx k2) acc) := by
  conv_lhs => rw [build_search_tree]
  rw [if_neg (by omega)]
  simp only [hdrop]
  rfl

theorem build_search_tree_frame (val oth : Nat) :
    ∀ (n : Nat) (ct : List (Int × List Nat)), ct.length ≤ n →
      ∀ (bx : Builder) (acc : List (Int × Nat × List Nat)) (q : Nat),
        q ≠ bx.cur → q < bx.nextEbb →
        bx.nextEbb ≤ (build_search_tree val oth ct bx acc).1.nextEbb ∧
        Legalizer.lookupA (build_search_tree val oth ct bx acc).1.blocks q =
          Legalizer.lookupA bx.blocks q := by
  intro n
  induction n with
  | zero =>
      intro ct hlen bx acc q hq hlt
      obtain rfl : ct = [] := List.length_eq_zero.1 (Nat.le_zero.1 hlen)
      rw [build_search_tree_le val oth [] bx acc (by decide)]
      obtain ⟨fc, fm, fl⟩ :=
        foldl_cascadeStep_frame val ([] : List (Int × List Nat)).reverse
          bx acc q hq hlt
      refine ⟨fm, ?_⟩
      show Legalizer.lookupA (appendIns _ _ _) q = _
      rw [lookupA_appendIns_ne q _ (fun hcontra => hq (fc ▸ hcontra)), fl]
  | succ n ih =>
      intro ct hlen bx acc q hq hlt
      by_cases h3 : ct.length ≤ 3
      · rw [build_search_tree_le val oth ct bx acc h3]
        obtain ⟨fc, fm, fl⟩ :=
          foldl_cascadeStep_frame val ct.reverse bx acc q hq hlt
        refine ⟨fm, ?_⟩
        show Legalizer.lookupA (appendIns _ _ _) q = _
        rw [lookupA_appendIns_ne q _ (fun hcontra => hq (fc ▸ hcontra)), fl]
      · obtain ⟨⟨k2, es⟩, tl, hdrop⟩ :
            ∃ p tl, ct.drop (ct.length / 2) = p :: tl :=
          List.exists_cons_of_ne_nil (by
            intro hcontra
            have := congrArg List.length hcontra
            simp only [List.length_drop, List.length_nil] at this
            omega)
        rw [build_search_tree_gt val oth ct bx acc (by omega) k2 es tl hdrop]
        have hlook : Legalizer.lookupA (splitStepB val bx k2).blocks q =
            Legalizer.lookupA bx.blocks q := by
          rw [splitStepB_blocks, lookupA_appendIns_ne q bx.cur hq,
            lookupA_appendIns_ne q bx.cur hq,
            lookupA_appendIns_ne q bx.cur hq,
            lookupA_append_single_ne q (bx.nextEbb + 1) (by omega)
              ([] : List SwInst),
            lookupA_append_single_ne q bx.nextEbb (Nat.ne_of_lt hlt)
              ([] : List SwInst)]
        have hlenL : (ct.take (ct.length / 2)).length ≤ n := by
          simp only [List.length_take]
          omega
        obtain ⟨mL, lL⟩ := ih (ct.take (ct.length / 2)) hlenL
          (splitStepB val bx k2) acc q
          (by rw [splitStepB_cur]; omega)
          (by rw [splitStepB_nextEbb]; omega)
        rw [splitStepB_nextEbb] at mL
        obtain ⟨bxL, accL, hLB⟩ : ∃ x y,
            build_search_tree val oth (ct.take (ct.length / 2))
              (splitStepB val bx k2) acc = (x, y) := ⟨_, _, rfl⟩
        rw [hLB] at mL lL ⊢
        dsimp only at mL lL ⊢
        have hlenR : ((k2, es) :: tl).length ≤ n := by
          simp only [List.length_cons]
          have := congrArg List.length hdrop
          simp only [List.length_drop, List.length_cons] at this
          omega
        obtain ⟨mR, lR⟩ := ih ((k2, es) :: tl) hlenR
          (bxL.switchTo (bx.nextEbb + 1)) accL q
          (by show q ≠ bx.nextEbb + 1; omega)
          (by show q < bxL.nextEbb; omega)
        have hsw1 : (bxL.switchTo (bx.nextEbb + 1)).nextEbb = bxL.nextEbb := rfl
        have hsw2 : (bxL.switchTo (bx.nextEbb + 1)).blocks = bxL.blocks := rfl
        rw [hsw1] at mR
        rw [hsw2] at lR
        exact ⟨by omega, by rw [lR, lL, hlook]⟩

/-- C6: the switch builder first sorts the entries by key and groups them
into maximal runs of consecutive keys (`clusterJoin` of the cluster list
recovers the sorted entry list; consecutive clusters are separated by a key
gap; every cluster is nonempty), and then `build_search_tree`: with at most
three clusters it walks them in descending (reversed) order emitting the
comparison cascade into the current block — `icmp_imm eq` for a singleton
cluster, `icmp_imm sge` into a fresh dispatch EBB for a run, as described by
`cascadeInsts`/`cascadeAcc` — ending with an unconditional `jump otherwise`;
with more than three clusters it splits the cluster list at the midpoint,
compares the switched value against the first key `k2` of the right half,
and branches into the two recursively built subtrees, the current block
receiving exactly `icmp_imm sge val, k2; brnz right_ebb; jump left_ebb`. -/
theorem switch_clusters_and_search_tree
    (cases : List (Int × Nat)) (hnd : (cases.map Prod.fst).Nodup)
    (val oth : Nat)
    (ct3 : List (Int × List Nat)) (bx3 : Builder)
    (acc3 : List (Int × Nat × List Nat)) (l0 : List SwInst)
    (h3 : ct3.length ≤ 3)
    (hb3 : Legalizer.lookupA bx3.blocks bx3.cur = some l0)
    (hc3 : bx3.cur < bx3.nextEbb)
    (ct4 : List (Int × List Nat)) (bx4 : Builder)
    (acc4 : List (Int × Nat × List Nat)) (l4 : List SwInst)
    (h4 : 3 < ct4.length)
    (k2 : Int) (es : List Nat) (tl : List (Int × List Nat))
    (hdrop : ct4.drop (ct4.length / 2) = (k2, es) :: tl)
    (hb4 : Legalizer.lookupA bx4.blocks bx4.cur = some l4)
    (hc4 : bx4.cur < bx4.nextEbb) :
    (clusterJoin (build_cases_tree cases) = sortByKey cases ∧
      List.Chain' (fun c d => c.1 + (c.2.length : Int) < d.1)
        (build_cases_tree cases) ∧
      ∀ c ∈ build_cases_tree cases, c.2 ≠ []) ∧
    (Legalizer.lookupA (build_search_tree val oth ct3 bx3 acc3).1.blocks
        bx3.cur =
      some ((l0 ++ cascadeInsts val ct3.reverse bx3.nextValue bx3.nextEbb) ++
        [.jump oth]) ∧
      (build_search_tree val oth ct3 bx3 acc3).2 =
        acc3 ++ cascadeAcc ct3.reverse bx3.nextEbb) ∧
    (build_search_tree val oth ct4 bx4 acc4 =
      (fun r => build_search_tree val oth ((k2, es) :: tl)
          (Builder.switchTo r.1 (bx4.nextEbb + 1)) r.2)
        (build_search_tree val oth (ct4.take (ct4.length / 2))
          (splitStepB val bx4 k2) acc4) ∧
      Legalizer.lookupA (build_search_tree val oth ct4 bx4 acc4).1.blocks
          bx4.cur =
        some (l4 ++ [.icmpImm bx4.nextValue .sge val k2,
          .brnz bx4.nextValue (bx4.nextEbb + 1), .jump bx4.nextEbb])) := by
  refine ⟨build_cases_tree_spec cases hnd, ?_, ?_, ?_⟩
  · obtain ⟨fc, fl, fa⟩ :=
      foldl_cascadeStep_desc val ct3.reverse bx3 acc3 l0 hb3 hc3
    rw [build_search_tree_le val oth ct3 bx3 acc3 h3]
    dsimp only
    constructor
    · show Legalizer.lookupA (appendIns _ _ _) bx3.cur = _
      rw [fc]
      exact lookupA_appendIns_self bx3.cur _ _ _ fl
    · exact fa
  · exact build_search_tree_gt val oth ct4 bx4 acc4 h4 k2 es tl hdrop
  · rw [build_search_tree_gt val oth ct4 bx4 acc4 h4 k2 es tl hdrop]
    dsimp only
    have hpre : Legalizer.lookupA (splitStepB val bx4 k2).blocks bx4.cur =
        some (l4 ++ [.icmpImm bx4.nextValue .sge val k2,
          .brnz bx4.nextValue (bx4.nextEbb + 1), .jump bx4.nextEbb]) := by
      rw [splitStepB_blocks]
      have h1 := lookupA_append_left bx4.cur bx4.blocks
        [(bx4.nextEbb, [])] l4 hb4
      have h2 := lookupA_append_left bx4.cur _ [(bx4.nextEbb + 1, [])] l4 h1
      have h5 := lookupA_appendIns_self bx4.cur _
        (.jump bx4.nextEbb) _
        (lookupA_appendIns_self bx4.cur _
          (.brnz bx4.nextValue (bx4.nextEbb + 1)) _
          (lookupA_appendIns_self bx4.cur _
            (.icmpImm bx4.nextValue .sge val k2) _ h2))
      simpa [List.append_assoc] using h5
    obtain ⟨mL, lL⟩ := build_search_tree_frame val oth
      (ct4.take (ct4.length / 2)).length (ct4.take (ct4.length / 2)) le_rfl
      (splitStepB val bx4 k2) acc4 bx4.cur
      (by rw [splitStepB_cur]; omega)
      (by rw [splitStepB_nextEbb]; omega)
    rw [splitStepB_nextEbb] at mL
    obtain ⟨bxL, accL, hLB⟩ : ∃ x y,
        build_search_tree val oth (ct4.take (ct4.length / 2))
          (splitStepB val bx4 k2) acc4 = (x, y) := ⟨_, _, rfl⟩
    rw [hLB] at mL lL ⊢
    dsimp only at mL lL ⊢
    obtain ⟨mR, lR⟩ := build_search_tree_frame val oth
      ((k2, es) :: tl).length ((k2, es) :: tl) le_rfl
      (bxL.switchTo (bx4.nextEbb + 1)) accL bx4.cur
      (by show bx4.cur ≠ bx4.nextEbb + 1; omega)
      (by show bx4.cur < bxL.nextEbb; omega)
    rw [show (bxL.switchTo (bx4.nextEbb + 1)).blocks = bxL.blocks from rfl]
      at lR
    rw [lR, lL, hpre]

/-- Witness for C6: three entries for the clustering; a two-cluster list for
the cascade; a four-cluster list for the midpoint split. -/
theorem switch_clusters_and_search_tree_witness :
    (([((5 : Int), (50 : Nat)), (0, 10), (1, 11)].map Prod.fst).Nodup ∧
      ([((0 : Int), [1, 2]), (3, [4])] :
        List (Int × List Nat)).length ≤ 3 ∧
      Legalizer.lookupA
        ({ blocks := [(0, [])], cur := 0, nextEbb := 1, nextValue := 0,
           jumpTables := [] } : Builder).blocks 0 = some [] ∧
      (([((0 : Int), [1]), (2, [2]), (4, [3]), (6, [4])] :
        List (Int × List Nat)).drop
          (([((0 : Int), [1]), (2, [2]), (4, [3]), (6, [4])] :
            List (Int × List Nat)).length / 2) =
        [((4 : Int), [3]), (6, [4])])) ∧
    clusterJoin (build_cases_tree [((5 : Int), (50 : Nat)), (0, 10), (1, 11)]) =
      sortByKey [((5 : Int), (50 : Nat)), (0, 10), (1, 11)] ∧
    (build_search_tree 0 9 [((0 : Int), [1, 2]), (3, [4])]
        { blocks := [(0, [])], cur := 0, nextEbb := 1, nextValue := 0,
          jumpTables := [] } []).2 =
      [] ++ cascadeAcc ([((0 : Int), [1, 2]), (3, [4])] :
        List (Int × List Nat)).reverse 1 ∧
    Legalizer.lookupA (build_search_tree 0 9
        [((0 : Int), [1]), (2, [2]), (4, [3]), (6, [4])]
        { blocks := [(0, [])], cur := 0, nextEbb := 1, nextValue := 0,
          jumpTables := [] } []).1.blocks 0 =
      some ([] ++ [.icmpImm 0 .sge 0 4, .brnz 0 2, .jump 1]) :=
  ⟨⟨by decide, by decide, by decide, by decide⟩,
    (switch_clusters_and_search_tree
      [((5 : Int), (50 : Nat)), (0, 10), (1, 11)] (by decide) 0 9
      [((0 : Int), [1, 2]), (3, [4])]
      { blocks := [(0, [])], cur := 0, nextEbb := 1, nextValue := 0,
        jumpTables := [] } [] [] (by decide) (by decide) (by decide)
      [((0 : Int), [1]), (2, [2]), (4, [3]), (6, [4])]
      { blocks := [(0, [])], cur := 0, nextEbb := 1, nextValue := 0,
        jumpTables := [] } [] [] (by decide) 4 [3] [((6 : Int), [4])]
      (by decide) (by decide) (by decide)).1.1,
    (switch_clusters_and_search_tree
      [((5 : Int), (50 : Nat)), (0, 10), (1, 11)] (by decide) 0 9
      [((0 : Int), [1, 2]), (3, [4])]
      { blocks := [(0, [])], cur := 0, nextEbb := 1, nextValue := 0,
        jumpTables := [] } [] [] (by decide) (by decide) (by decide)
      [((0 : Int), [1]), (2, [2]), (4, [3]), (6, [4])]
      { blocks := [(0, [])], cur := 0, nextEbb := 1, nextValue := 0,
        jumpTables := [] } [] [] (by decide) 4 [3] [((6 : Int), [4])]
      (by decide) (by decide) (by decide)).2.1.2,
    (switch_clusters_and_search_tree
      [((5 : Int), (50 : Nat)), (0, 10), (1, 11)] (by decide) 0 9
      [((0 : Int), [1, 2]), (3, [4])]
      { blocks := [(0, [])], cur := 0, nextEbb := 1, nextValue := 0,
        jumpTables := [] } [] [] (by decide) (by decide) (by decide)
      [((0 : Int), [1]), (2, [2]), (4, [3]), (6, [4])]
      { blocks := [(0, [])], cur := 0, nextEbb := 1, nextValue := 0,
        jumpTables := [] } [] [] (by decide) 4 [3] [((6 : Int), [4])]
      (by decide) (by decide) (by decide)).2.2.2⟩

end SwitchM

namespace Legalizer

/-! Helper lemmas about the association-list and layout primitives. -/

theorem lookupA_setAssoc_self {α : Type} (l : List (Nat × α)) (k : Nat) (v : α) :
    lookupA (setAssoc l k v) k = some v := by
  induction l with
  | nil => simp [setAssoc, lookupA]
  | cons p rest ih =>
      by_cases h : p.1 = k
      · simp [setAssoc, h, lookupA]
      · simp [setAssoc, h, lookupA, ih]

theorem lookupA_setAssoc_ne {α : Type} (l : List (Nat × α)) (k k' : Nat) (v : α)
    (h : k ≠ k') : lookupA (setAssoc l k v) k' = lookupA l k' := by
  induction l with
  | nil => simp [setAssoc, lookupA, h]
  | cons p rest ih =>
      by_cases hp : p.1 = k
      · simp [setAssoc, hp, lookupA, h]
      · simp [setAssoc, hp, lookupA, ih]

theorem splitAtInst_of_not_mem (l : List Nat) (inst : Nat) (h : inst ∉ l) :
    splitAtInst l inst = none := by
  induction l with
  | nil => rfl
  | cons x xs ih =>
      simp only [List.mem_cons, not_or] at h
      simp [splitAtInst, Ne.symm h.1, ih h.2]

theorem splitAtInst_append (a b : List Nat) (inst : Nat) (h : inst ∉ a) :
    splitAtInst (a ++ inst :: b) inst = some (a, b) := by
  induction a with
  | nil => simp [splitAtInst]
  | cons x xs ih =>
      simp only [List.mem_cons, not_or] at h
      simp [splitAtInst, Ne.symm h.1, ih h.2]

theorem replaceEbbContent_spec (inst : Nat)
    (mk : List Nat → List Nat → List Nat × List (Nat × List Nat))
    (L1 L2 : List (Nat × List Nat)) (e : Nat) (a b : List Nat)
    (hL1 : ∀ p ∈ L1, inst ∉ p.2) (ha : inst ∉ a) :
    replaceEbbContent inst mk (L1 ++ (e, a ++ inst :: b) :: L2) =
      some (e, L1 ++ ((e, (mk a b).1) :: (mk a b).2 ++ L2)) := by
  induction L1 with
  | nil =>
      simp [replaceEbbContent, splitAtInst_append a b inst ha]
  | cons p rest ih =>
      have hp : inst ∉ p.2 := hL1 p (List.mem_cons_self p rest)
      have hrest : ∀ q ∈ rest, inst ∉ q.2 := fun q hq =>
        hL1 q (List.mem_cons_of_mem p hq)
      simp [replaceEbbContent, splitAtInst_of_not_mem p.2 inst hp, ih hrest]

/-- C3: for every conditional trap instruction placed in the layout,
`expand_cond_trap` splits the EBB after the trap: `trapz v` becomes
`brnz v, continuation` and `trapnz v` becomes `brz v, continuation`, each
followed by an unconditional `trap` with the original code, the continuation
EBB receiving the rest of the original EBB; the CFG is recomputed for the old
EBB and for the new one. -/
theorem expand_cond_trap_splits_and_inverts (f : Func) (inst : Nat)
    (isTrapz : Bool) (arg : Nat) (code : Nat)
    (L1 L2 : List (Nat × List Nat)) (e : Nat) (a b : List Nat)
    (hdata : lookupA f.dfg.instData inst =
      some (if isTrapz then .trapz arg code else .trapnz arg code))
    (hlayout : f.layout = L1 ++ (e, a ++ inst :: b) :: L2)
    (hL1 : ∀ p ∈ L1, inst ∉ p.2) (ha : inst ∉ a)
    (hfresh : inst ≠ f.dfg.nextInst) :
    expand_cond_trap inst f =
      some
        ({ f with
            dfg :=
              { f.dfg with
                instData :=
                  setAssoc
                    (setAssoc f.dfg.instData inst
                      (if isTrapz then .brnz arg f.dfg.nextEbb []
                       else .brz arg f.dfg.nextEbb []))
                    f.dfg.nextInst (.trap code)
                ebbParams := setAssoc f.dfg.ebbParams f.dfg.nextEbb []
                nextInst := f.dfg.nextInst + 1
                nextEbb := f.dfg.nextEbb + 1 }
            layout :=
              L1 ++ (e, a ++ [inst, f.dfg.nextInst]) ::
                (f.dfg.nextEbb, b) :: L2 },
          [e, f.dfg.nextEbb]) ∧
      lookupA
          (setAssoc
            (setAssoc f.dfg.instData inst
              (if isTrapz then .brnz arg f.dfg.nextEbb []
               else .brz arg f.dfg.nextEbb []))
            f.dfg.nextInst (.trap code)) inst =
        some (if isTrapz then .brnz arg f.dfg.nextEbb []
              else .brz arg f.dfg.nextEbb []) := by
  have hrep := replaceEbbContent_spec inst
    (fun a b => (a ++ [inst, f.dfg.nextInst], [(f.dfg.nextEbb, b)]))
    L1 L2 e a b hL1 ha
  cases isTrapz <;>
    simp only [Bool.false_eq_true, if_false, if_true] at hdata ⊢ <;>
    exact
      ⟨by simp [expand_cond_trap, hdata, DFG.makeEbb, DFG.makeInst,
          DFG.replaceInst, hlayout, hrep],
       by rw [lookupA_setAssoc_ne _ _ _ _ (Ne.symm hfresh),
          lookupA_setAssoc_self]⟩

/-- Input function of scenario S1: `ebb0(v0): trapnz v0, user(0); return`. -/
def condTrapExampleFunc : Func :=
  { dfg :=
      { instData := [(0, .trapnz 0 0), (1, .ret [])]
        valueDefs := [(0, .param 0 0)]
        valueTys := [(0, .i32)]
        ebbParams := [(0, [0])]
        nextInst := 2, nextValue := 1, nextEbb := 1 }
    layout := [(0, [0, 1])], jumpTables := [], encodings := [] }

/-- Witness for C3 at scenario S1: the `trapnz` of `condTrapExampleFunc`
becomes `brz v0, ebb1; trap user(0)` with `ebb1: return`, and the CFG is
recomputed for `ebb0` and `ebb1`. -/
theorem expand_cond_trap_splits_and_inverts_witness :
    (lookupA condTrapExampleFunc.dfg.instData 0 =
        some (if false then .trapz 0 0 else .trapnz 0 0)) ∧
    expand_cond_trap 0 condTrapExampleFunc =
      some
        ({ dfg :=
             { instData := [(0, .brz 0 1 []), (1, .ret []), (2, .trap 0)],
               valueDefs := [(0, .param 0 0)],
               valueTys := [(0, .i32)],
               ebbParams := [(0, [0]), (1, [])],
               nextInst := 3, nextValue := 1, nextEbb := 2 },
           layout := [(0, [0, 2]), (1, [1])], jumpTables := [], encodings := [] },
         [0, 1]) :=
  ⟨by decide,
    (expand_cond_trap_splits_and_inverts condTrapExampleFunc 0 false 0 0
      [] [] 0 [] [1] (by decide) rfl (by decide) (by decide) (by decide)).1⟩

/-- C4: for every `r = select c, t, f` instruction placed in the layout,
`expand_select` replaces it with `brnz c, merge(t)` followed by
`jump merge(f)` into a fresh merge EBB, detaches the original result `r` from
the instruction and re-attaches it as the merge EBB's (only) parameter, so
`r` keeps its identity and its recorded type for all existing uses; the CFG
is recomputed for the new EBB and the old one. -/
theorem expand_select_diamond (f : Func) (inst : Nat) (ctrl tval fval : Nat)
    (r : Nat) (L1 L2 : List (Nat × List Nat)) (e : Nat) (a b : List Nat)
    (hdata : lookupA f.dfg.instData inst = some (.select ctrl tval fval))
    (hres : f.dfg.firstResult inst = some r)
    (hlayout : f.layout = L1 ++ (e, a ++ inst :: b) :: L2)
    (hL1 : ∀ p ∈ L1, inst ∉ p.2) (ha : inst ∉ a) :
    expand_select inst f =
      some
        ({ f with
            dfg :=
              { f.dfg with
                instData :=
                  setAssoc
                    (setAssoc f.dfg.instData inst
                      (.brnz ctrl f.dfg.nextEbb [tval]))
                    f.dfg.nextInst (.jump f.dfg.nextEbb [fval])
                valueDefs :=
                  setAssoc
                    (f.dfg.valueDefs.filter fun p =>
                      match p.2 with
                      | .result j _ => j ≠ inst
                      | _ => true)
                    r (.param f.dfg.nextEbb 0)
                ebbParams :=
                  setAssoc (setAssoc f.dfg.ebbParams f.dfg.nextEbb [])
                    f.dfg.nextEbb [r]
                nextInst := f.dfg.nextInst + 1
                nextEbb := f.dfg.nextEbb + 1 }
            layout :=
              L1 ++ (e, a ++ [inst, f.dfg.nextInst]) ::
                (f.dfg.nextEbb, b) :: L2 },
          [f.dfg.nextEbb, e]) ∧
    (expand_select inst f).map (fun p => lookupA p.1.dfg.valueDefs r) =
      some (some (.param f.dfg.nextEbb 0)) ∧
    (expand_select inst f).map (fun p => p.1.dfg.valueTys) =
      some f.dfg.valueTys ∧
    (expand_select inst f).map (fun p => lookupA p.1.dfg.ebbParams f.dfg.nextEbb) =
      some (some [r]) := by
  have hrep := replaceEbbContent_spec inst
    (fun a b => (a ++ [inst, f.dfg.nextInst], [(f.dfg.nextEbb, b)]))
    L1 L2 e a b hL1 ha
  have hmain : expand_select inst f =
      some
        ({ f with
            dfg :=
              { f.dfg with
                instData :=
                  setAssoc
                    (setAssoc f.dfg.instData inst
                      (.brnz ctrl f.dfg.nextEbb [tval]))
                    f.dfg.nextInst (.jump f.dfg.nextEbb [fval])
                valueDefs :=
                  setAssoc
                    (f.dfg.valueDefs.filter fun p =>
                      match p.2 with
                      | .result j _ => j ≠ inst
                      | _ => true)
                    r (.param f.dfg.nextEbb 0)
                ebbParams :=
                  setAssoc (setAssoc f.dfg.ebbParams f.dfg.nextEbb [])
                    f.dfg.nextEbb [r]
                nextInst := f.dfg.nextInst + 1
                nextEbb := f.dfg.nextEbb + 1 }
            layout :=
              L1 ++ (e, a ++ [inst, f.dfg.nextInst]) ::
                (f.dfg.nextEbb, b) :: L2 },
          [f.dfg.nextEbb, e]) := by
    simp [expand_select, hdata, hres, DFG.clearResults, DFG.makeEbb,
      DFG.attachEbbParam, DFG.replaceInst, DFG.makeInst, hlayout, hrep,
      lookupA_setAssoc_self]
  refine ⟨hmain, ?_, ?_, ?_⟩ <;>
    simp [hmain, lookupA_setAssoc_self]

/-- Input function of scenario S2:
`ebb0(v0, v1, v2): v3 = select v0, v1, v2; return v3`. -/
def selectExampleFunc : Func :=
  { dfg :=
      { instData := [(0, .select 0 1 2), (1, .ret [3])]
        valueDefs :=
          [(0, .param 0 0), (1, .param 0 1), (2, .param 0 2), (3, .result 0 0)]
        valueTys := [(0, .b1), (1, .i32), (2, .i32), (3, .i32)]
        ebbParams := [(0, [0, 1, 2])]
        nextInst := 2, nextValue := 4, nextEbb := 1 }
    layout := [(0, [0, 1])], jumpTables := [], encodings := [] }

/-- Witness for C4 at scenario S2: the `select` of `selectExampleFunc`
becomes `brnz v0, ebb1(v1); jump ebb1(v2)` with `ebb1(v3): return v3`, and
`v3` keeps its number and type as the parameter of the merge EBB. -/
theorem expand_select_diamond_witness :
    (lookupA selectExampleFunc.dfg.instData 0 = some (.select 0 1 2)) ∧
    (selectExampleFunc.dfg.firstResult 0 = some 3) ∧
    expand_select 0 selectExampleFunc =
      some
        ({ dfg :=
             { instData := [(0, .brnz 0 1 [1]), (1, .ret [3]), (2, .jump 1 [2])],
               valueDefs :=
                 [(0, .param 0 0), (1, .param 0 1), (2, .param 0 2),
                  (3, .param 1 0)],
               valueTys := [(0, .b1), (1, .i32), (2, .i32), (3, .i32)],
               ebbParams := [(0, [0, 1, 2]), (1, [3])],
               nextInst := 3, nextValue := 4, nextEbb := 2 },
           layout := [(0, [0, 2]), (1, [1])], jumpTables := [], encodings := [] },
         [1, 0]) :=
  ⟨by decide, by decide,
    (expand_select_diamond selectExampleFunc 0 0 1 2 3 [] [] 0 [] [1]
      (by decide) (by decide) rfl (by decide) (by decide)).1⟩

theorem mem_setAssoc {α : Type} (l : List (Nat × α)) (k : Nat) (v : α) :
    ∀ p ∈ setAssoc l k v, p ∈ l ∨ p = (k, v) := by
  induction l with
  | nil => simp [setAssoc]
  | cons q rest ih =>
      obtain ⟨k', v'⟩ := q
      intro p hp
      by_cases h : k' = k
      · rw [setAssoc, if_pos h] at hp
        rcases List.mem_cons.1 hp with h1 | h1
        · right; exact h1
        · left; exact List.mem_cons_of_mem _ h1
      · rw [setAssoc, if_neg h] at hp
        rcases List.mem_cons.1 hp with h1 | h1
        · left; exact h1 ▸ List.mem_cons_self _ _
        · rcases ih p h1 with h2 | h2
          · left; exact List.mem_cons_of_mem _ h2
          · right; exact h2

theorem lookupA_mem {α : Type} (l : List (Nat × α)) (k : Nat) (v : α)
    (h : lookupA l k = some v) : (k, v) ∈ l := by
  induction l with
  | nil => simp [lookupA] at h
  | cons q rest ih =>
      obtain ⟨k', v'⟩ := q
      simp only [lookupA] at h
      by_cases hq : k' = k
      · rw [if_pos hq] at h
        obtain rfl : v' = v := Option.some.inj h
        subst hq
        exact List.mem_cons_self _ _
      · rw [if_neg hq] at h
        exact List.mem_cons_of_mem _ (ih h)

/-- The function `expand_br_table_jt` is specified to produce (section 4.4 /
scenario S3 of the spec): the bounds check
`oob = icmp_imm uge idx, len(jt); brnz oob, default; jump dispatch` replaces
`br_table` in its EBB, and the fresh dispatch EBB holds
`base = jump_table_base; entry = jump_table_entry(.., 4, jt);
addr = iadd base, entry; indirect_jump_table_br addr, jt`.
Written out explicitly over the state after `expand_br_table_jt`, with
`n0`/`v0`/`jtEbb` the first fresh instruction, value and EBB numbers. -/
def brTableJtResult (ptrTy : Ty) (f : Func) (arg : Nat) (default_ebb : Nat)
    (table : Nat) (entries : List Nat) (e : Nat)
    (L1 L2 : List (Nat × List Nat)) (a b : List Nat) : Func :=
  let n0 := f.dfg.nextInst
  let v0 := f.dfg.nextValue
  let jtEbb := f.dfg.nextEbb
  { dfg :=
      { instData :=
          setAssoc (setAssoc (setAssoc (setAssoc (setAssoc (setAssoc (setAssoc
            f.dfg.instData
            n0 (.icmpImm .uge arg (entries.length : Int)))
            (n0 + 1) (.brnz v0 default_ebb []))
            (n0 + 2) (.jump jtEbb []))
            (n0 + 3) (.jumpTableBase ptrTy table))
            (n0 + 4) (.jumpTableEntry ptrTy arg (v0 + 1) 4 table))
            (n0 + 5) (.iadd (v0 + 1) (v0 + 2)))
            (n0 + 6) (.indirectJumpTableBr (v0 + 3) table)
        valueDefs :=
          setAssoc (setAssoc (setAssoc (setAssoc f.dfg.valueDefs
            v0 (.result n0 0))
            (v0 + 1) (.result (n0 + 3) 0))
            (v0 + 2) (.result (n0 + 4) 0))
            (v0 + 3) (.result (n0 + 5) 0)
        valueTys :=
          setAssoc (setAssoc (setAssoc (setAssoc f.dfg.valueTys
            v0 .b1) (v0 + 1) ptrTy) (v0 + 2) ptrTy) (v0 + 3) ptrTy
        ebbParams := setAssoc f.dfg.ebbParams jtEbb []
        nextInst := n0 + 7
        nextValue := v0 + 4
        nextEbb := jtEbb + 1 }
    layout :=
      L1 ++ (e, a ++ [n0, n0 + 1, n0 + 2]) ::
        (jtEbb, [n0 + 3, n0 + 4, n0 + 5, n0 + 6] ++ b) :: L2
    jumpTables := f.jumpTables
    encodings := f.encodings }

/-- C2: for a `br_table idx, default, jt` instruction placed in the layout of
a well-formed function (all branch destinations and jump-table entries refer
to already-allocated EBBs), `expand_br_table_jt` produces exactly the S3
shape — `icmp_imm uge idx, len(jt)`, `brnz` to the default EBB, `jump` to a
fresh dispatch EBB holding `jump_table_base` of pointer type,
`jump_table_entry` with entry size 4, `iadd`, `indirect_jump_table_br` — and
recomputes the CFG for both EBBs; moreover the only instruction in the whole
function that targets the dispatch EBB is that `jump`, which sits immediately
after the bounds check and its `brnz`, and no jump table contains the
dispatch EBB: every path reaching the `indirect_jump_table_br` has first
passed the `uge` bounds check. -/
theorem expand_br_table_jt_guarded (ptrTy : Ty) (f : Func) (inst : Nat)
    (arg : Nat) (default_ebb : Nat) (table : Nat)
    (entries : List Nat) (e : Nat) (L1 L2 : List (Nat × List Nat))
    (a b : List Nat)
    (hdata : lookupA f.dfg.instData inst =
      some (.brTable arg default_ebb table))
    (hjt : f.jumpTables[table]? = some entries)
    (hlayout : f.layout = L1 ++ (e, a ++ inst :: b) :: L2)
    (hL1 : ∀ p ∈ L1, inst ∉ p.2) (ha : inst ∉ a)
    (hwfInst : ∀ p ∈ f.dfg.instData,
      ∀ e' ∈ InstructionData.directTargets p.2, e' < f.dfg.nextEbb)
    (hwfTables : ∀ tl ∈ f.jumpTables, ∀ e' ∈ tl, e' < f.dfg.nextEbb) :
    expand_br_table_jt ptrTy inst f =
      some (brTableJtResult ptrTy f arg default_ebb table entries e L1 L2 a b,
        [e, f.dfg.nextEbb]) ∧
    (∀ p ∈ (brTableJtResult ptrTy f arg default_ebb table entries e
        L1 L2 a b).dfg.instData,
      f.dfg.nextEbb ∈ InstructionData.directTargets p.2 →
        p.1 = f.dfg.nextInst + 2) ∧
    (∀ tl ∈ (brTableJtResult ptrTy f arg default_ebb table entries e
        L1 L2 a b).jumpTables, f.dfg.nextEbb ∉ tl) := by
  have hrep := replaceEbbContent_spec inst
    (fun a b =>
      (a ++ [f.dfg.nextInst, f.dfg.nextInst + 1, f.dfg.nextInst + 2],
        [(f.dfg.nextEbb,
          (f.dfg.nextInst + 3) :: (f.dfg.nextInst + 4) ::
            (f.dfg.nextInst + 5) :: (f.dfg.nextInst + 6) :: b)]))
    L1 L2 e a b hL1 ha
  refine ⟨?_, ?_, ?_⟩
  · simp [expand_br_table_jt, hdata, hjt, DFG.makeEbb, DFG.makeInstWithResult,
      DFG.makeInst, Ty.bytes, Ty.bits, hlayout, Nat.add_assoc, hrep,
      brTableJtResult]
  · intro p hp htarget
    have hbrmem : (inst, InstructionData.brTable arg default_ebb table) ∈
        f.dfg.instData := lookupA_mem _ _ _ hdata
    have hdefault : default_ebb < f.dfg.nextEbb := by
      have := hwfInst _ hbrmem
      simp [InstructionData.directTargets] at this
      exact this
    simp only [brTableJtResult] at hp
    rcases mem_setAssoc _ _ _ p hp with hp | rfl
    rotate_left
    · simp [InstructionData.directTargets] at htarget
    rcases mem_setAssoc _ _ _ p hp with hp | rfl
    rotate_left
    · simp [InstructionData.directTargets] at htarget
    rcases mem_setAssoc _ _ _ p hp with hp | rfl
    rotate_left
    · simp [InstructionData.directTargets] at htarget
    rcases mem_setAssoc _ _ _ p hp with hp | rfl
    rotate_left
    · simp [InstructionData.directTargets] at htarget
    rcases mem_setAssoc _ _ _ p hp with hp | rfl
    rotate_left
    · rfl
    rcases mem_setAssoc _ _ _ p hp with hp | rfl
    rotate_left
    · simp only [InstructionData.directTargets, List.mem_singleton] at htarget
      exact absurd htarget.symm (Nat.ne_of_lt hdefault)
    rcases mem_setAssoc _ _ _ p hp with hp | rfl
    rotate_left
    · simp [InstructionData.directTargets] at htarget
    · have := hwfInst p hp _ htarget
      exact absurd this (lt_irrefl _)
  · intro tl htl
    intro hmem
    have := hwfTables tl htl _ hmem
    exact absurd this (lt_irrefl _)

/-- Input function of scenario S3/S4:
`ebb0(v0): br_table v0, ebb1, jt0` with `jt0 = jump_table ebb2, ebb3, ebb4`. -/
def brTableExampleFunc : Func :=
  { dfg :=
      { instData := [(0, .brTable 0 1 0)]
        valueDefs := [(0, .param 0 0)]
        valueTys := [(0, .i32)]
        ebbParams := [(0, [0])]
        nextInst := 1, nextValue := 1, nextEbb := 5 }
    layout := [(0, [0])], jumpTables := [[2, 3, 4]], encodings := [] }

/-- Witness for C2 at scenario S3: the `br_table` of `brTableExampleFunc` is
expanded to the bounds check plus dispatch EBB shape for a 64-bit pointer
type. -/
theorem expand_br_table_jt_guarded_witness :
    (lookupA brTableExampleFunc.dfg.instData 0 = some (.brTable 0 1 0)) ∧
    expand_br_table_jt .i64 0 brTableExampleFunc =
      some (brTableJtResult .i64 brTableExampleFunc 0 1 0 [2, 3, 4] 0
        [] [] [] [], [0, 5]) :=
  ⟨by decide,
    (expand_br_table_jt_guarded .i64 brTableExampleFunc 0 0 1 0 [2, 3, 4] 0
      [] [] [] [] (by decide) (by decide) rfl (by decide) (by decide)
      (by decide) (by decide)).1⟩

/-! Structural lemmas about `expand_br_table_conds`'s emission loop. -/

theorem makeEbbs_fst (d : DFG) (n : Nat) :
    (d.makeEbbs n).1 = (List.range n).map (d.nextEbb + ·) := by
  induction n generalizing d with
  | zero => simp [DFG.makeEbbs]
  | succ m ih =>
      rw [List.range_succ_eq_map]
      simp [DFG.makeEbbs, DFG.makeEbb, ih, List.map_map, Function.comp,
        Nat.add_assoc, Nat.add_comm 1]

theorem makeEbbs_counters (d : DFG) (n : Nat) :
    (d.makeEbbs n).2.instData = d.instData ∧
    (d.makeEbbs n).2.valueDefs = d.valueDefs ∧
    (d.makeEbbs n).2.valueTys = d.valueTys ∧
    (d.makeEbbs n).2.nextInst = d.nextInst ∧
    (d.makeEbbs n).2.nextValue = d.nextValue := by
  induction n generalizing d with
  | zero => simp [DFG.makeEbbs]
  | succ m ih => simpa [DFG.makeEbbs, DFG.makeEbb] using ih _

theorem condsEmit_preserves (arg : Nat) (dflt : Nat) :
    ∀ (entries cfs : List Nat) (dfg : DFG) (i : Nat),
      (∀ k, k < dfg.nextInst →
        lookupA (condsEmit arg dflt dfg i entries cfs).1.instData k =
          lookupA dfg.instData k) ∧
      (∀ k, k < dfg.nextValue →
        lookupA (condsEmit arg dflt dfg i entries cfs).1.valueDefs k =
          lookupA dfg.valueDefs k) := by
  intro entries
  induction entries with
  | nil =>
      intro cfs dfg i
      constructor <;> intro k hk
      · simp only [condsEmit, DFG.makeInst]
        exact lookupA_setAssoc_ne _ dfg.nextInst k _ (by omega)
      · simp [condsEmit, DFG.makeInst]
  | cons dest rest ih =>
      intro cfs dfg i
      cases rest with
      | nil =>
          constructor <;> intro k hk <;>
            simp only [condsEmit, DFG.makeInstWithResult, DFG.makeInst]
          · rw [lookupA_setAssoc_ne _ (dfg.nextInst + 1 + 1) k _ (by omega),
              lookupA_setAssoc_ne _ (dfg.nextInst + 1) k _ (by omega),
              lookupA_setAssoc_ne _ dfg.nextInst k _ (by omega)]
          · rw [lookupA_setAssoc_ne _ dfg.nextValue k _ (by omega)]
      | cons r0 r1 =>
          cases cfs with
          | nil => constructor <;> intro k hk <;> simp [condsEmit]
          | cons cf cfs' =>
              have hstep := ih (cfs')
                { instData :=
                    setAssoc (setAssoc (setAssoc dfg.instData dfg.nextInst
                      (.icmpImm .eq arg (i : Int))) (dfg.nextInst + 1)
                      (.brnz dfg.nextValue dest [])) (dfg.nextInst + 1 + 1)
                      (.jump cf [])
                  valueDefs := setAssoc dfg.valueDefs dfg.nextValue
                    (.result dfg.nextInst 0)
                  valueTys := setAssoc dfg.valueTys dfg.nextValue .b1
                  ebbParams := dfg.ebbParams
                  nextInst := dfg.nextInst + 1 + 1 + 1
                  nextValue := dfg.nextValue + 1
                  nextEbb := dfg.nextEbb } (i + 1)
              constructor <;> intro k hk <;>
                simp only [condsEmit, DFG.makeInstWithResult, DFG.makeInst]
              · rw [hstep.1 k (by exact (by omega : k < dfg.nextInst + 1 + 1 + 1))]
                exact
                  (by rw [lookupA_setAssoc_ne _ (dfg.nextInst + 1 + 1) k _ (by omega),
                        lookupA_setAssoc_ne _ (dfg.nextInst + 1) k _ (by omega),
                        lookupA_setAssoc_ne _ dfg.nextInst k _ (by omega)] :
                    lookupA (setAssoc (setAssoc (setAssoc dfg.instData dfg.nextInst
                      (.icmpImm .eq arg (i : Int))) (dfg.nextInst + 1)
                      (.brnz dfg.nextValue dest [])) (dfg.nextInst + 1 + 1)
                      (.jump cf [])) k = lookupA dfg.instData k)
              · rw [hstep.2 k (by exact (by omega : k < dfg.nextValue + 1))]
                exact
                  (by rw [lookupA_setAssoc_ne _ dfg.nextValue k _ (by omega)] :
                    lookupA (setAssoc dfg.valueDefs dfg.nextValue
                      (.result dfg.nextInst 0)) k = lookupA dfg.valueDefs k)

theorem condsEmit_first (arg dflt : Nat) (entries cfs : List Nat)
    (dfg : DFG) (i : Nat) (hlen : cfs.length + 1 = entries.length) :
    (condsEmit arg dflt dfg i entries cfs).2.1 =
      [dfg.nextInst, dfg.nextInst + 1, dfg.nextInst + 2] := by
  cases entries with
  | nil => exact absurd hlen (by simp)
  | cons dest rest =>
      cases rest with
      | nil => simp [condsEmit, DFG.makeInstWithResult, DFG.makeInst]
      | cons r0 r1 =>
          cases cfs with
          | nil => exact absurd hlen (by simp)
          | cons cf cfs' =>
              simp [condsEmit, DFG.makeInstWithResult, DFG.makeInst]

theorem condsEmit_blocks (arg dflt : Nat) :
    ∀ (entries cfs : List Nat) (dfg : DFG) (i : Nat),
      cfs.length + 1 = entries.length →
      (condsEmit arg dflt dfg i entries cfs).2.2 =
        (List.range cfs.length).map fun j =>
          (cfs.getD j 0, [dfg.nextInst + 3 * j + 3, dfg.nextInst + 3 * j + 4,
            dfg.nextInst + 3 * j + 5]) := by
  intro entries
  induction entries with
  | nil => intro cfs dfg i hlen; exact absurd hlen (by simp)
  | cons dest rest ih =>
      intro cfs dfg i hlen
      cases rest with
      | nil =>
          cases cfs with
          | nil => simp [condsEmit, DFG.makeInstWithResult, DFG.makeInst]
          | cons cf cfs' => simp at hlen
      | cons r0 r1 =>
          cases cfs with
          | nil => exact absurd hlen (by simp)
          | cons cf cfs' =>
              have hlen' : cfs'.length + 1 = (r0 :: r1).length := by
                simpa using hlen
              have hfirst := condsEmit_first arg dflt (r0 :: r1) cfs'
                { instData :=
                    setAssoc (setAssoc (setAssoc dfg.instData dfg.nextInst
                      (.icmpImm .eq arg (i : Int))) (dfg.nextInst + 1)
                      (.brnz dfg.nextValue dest [])) (dfg.nextInst + 1 + 1)
                      (.jump cf [])
                  valueDefs := setAssoc dfg.valueDefs dfg.nextValue
                    (.result dfg.nextInst 0)
                  valueTys := setAssoc dfg.valueTys dfg.nextValue .b1
                  ebbParams := dfg.ebbParams
                  nextInst := dfg.nextInst + 1 + 1 + 1
                  nextValue := dfg.nextValue + 1
                  nextEbb := dfg.nextEbb } (i + 1) hlen'
              have hblocks := ih cfs'
                { instData :=
                    setAssoc (setAssoc (setAssoc dfg.instData dfg.nextInst
                      (.icmpImm .eq arg (i : Int))) (dfg.nextInst + 1)
                      (.brnz dfg.nextValue dest [])) (dfg.nextInst + 1 + 1)
                      (.jump cf [])
                  valueDefs := setAssoc dfg.valueDefs dfg.nextValue
                    (.result dfg.nextInst 0)
                  valueTys := setAssoc dfg.valueTys dfg.nextValue .b1
                  ebbParams := dfg.ebbParams
                  nextInst := dfg.nextInst + 1 + 1 + 1
                  nextValue := dfg.nextValue + 1
                  nextEbb := dfg.nextEbb } (i + 1) hlen'
              simp only [condsEmit, DFG.makeInstWithResult, DFG.makeInst]
              rw [hfirst, hblocks]
              dsimp only
              rw [List.length_cons, List.range_succ_eq_map, List.map_cons,
                List.map_map]
              refine congrArg₂ List.cons ?_ ?_
              · simp
              · refine List.map_congr_left fun j hj => ?_
                simp only [Function.comp, List.getD_cons_succ]
                refine congrArg₂ Prod.mk rfl ?_
                refine congrArg₂ List.cons (by omega) ?_
                refine congrArg₂ List.cons (by omega) ?_
                refine congrArg₂ List.cons (by omega) rfl

/-- The DFG after one non-final iteration of the `expand_br_table_conds`
loop: the `icmp_imm`/`brnz`/`jump cond_failed` triple for entry number `i`
with destination `dest` and fall-through EBB `cf`. -/
def condsStep (arg dest cf : Nat) (i : Nat) (dfg : DFG) : DFG :=
  { instData :=
      setAssoc (setAssoc (setAssoc dfg.instData dfg.nextInst
        (.icmpImm .eq arg (i : Int))) (dfg.nextInst + 1)
        (.brnz dfg.nextValue dest [])) (dfg.nextInst + 2) (.jump cf [])
    valueDefs := setAssoc dfg.valueDefs dfg.nextValue (.result dfg.nextInst 0)
    valueTys := setAssoc dfg.valueTys dfg.nextValue .b1
    ebbParams := dfg.ebbParams
    nextInst := dfg.nextInst + 3
    nextValue := dfg.nextValue + 1
    nextEbb := dfg.nextEbb }

theorem condsEmit_cons_cons (arg dflt dest r0 cf : Nat) (r1 cfs' : List Nat)
    (dfg : DFG) (i : Nat) :
    condsEmit arg dflt dfg i (dest :: r0 :: r1) (cf :: cfs') =
      ((condsEmit arg dflt (condsStep arg dest cf i dfg) (i + 1)
          (r0 :: r1) cfs').1,
        [dfg.nextInst, dfg.nextInst + 1, dfg.nextInst + 2],
        (cf, (condsEmit arg dflt (condsStep arg dest cf i dfg) (i + 1)
            (r0 :: r1) cfs').2.1) ::
          (condsEmit arg dflt (condsStep arg dest cf i dfg) (i + 1)
            (r0 :: r1) cfs').2.2) := by
  simp [condsEmit, DFG.makeInstWithResult, DFG.makeInst, condsStep,
    Nat.add_assoc]

theorem condsEmit_lookup (arg dflt : Nat) :
    ∀ (entries cfs : List Nat) (dfg : DFG) (i j : Nat),
      j < entries.length → cfs.length + 1 = entries.length →
      lookupA (condsEmit arg dflt dfg i entries cfs).1.instData
          (dfg.nextInst + 3 * j) =
        some (.icmpImm .eq arg ((i + j : Nat) : Int)) ∧
      lookupA (condsEmit arg dflt dfg i entries cfs).1.instData
          (dfg.nextInst + 3 * j + 1) =
        some (.brnz (dfg.nextValue + j) (entries.getD j 0) []) ∧
      lookupA (condsEmit arg dflt dfg i entries cfs).1.instData
          (dfg.nextInst + 3 * j + 2) =
        some (if j + 1 = entries.length then .jump dflt []
              else .jump (cfs.getD j 0) []) ∧
      lookupA (condsEmit arg dflt dfg i entries cfs).1.valueDefs
          (dfg.nextValue + j) = some (.result (dfg.nextInst + 3 * j) 0) := by
  intro entries
  induction entries with
  | nil => intro cfs dfg i j hj hlen; exact absurd hj (by simp)
  | cons dest rest ih =>
      intro cfs dfg i j hj hlen
      cases rest with
      | nil =>
          obtain rfl : j = 0 := by simpa using hj
          simp only [condsEmit, DFG.makeInstWithResult, DFG.makeInst,
            Nat.mul_zero, Nat.add_zero, Nat.add_assoc]
          refine ⟨?_, ?_, ?_, ?_⟩
          · rw [lookupA_setAssoc_ne _ (dfg.nextInst + 2) dfg.nextInst _ (by omega),
              lookupA_setAssoc_ne _ (dfg.nextInst + 1) dfg.nextInst _ (by omega),
              lookupA_setAssoc_self]
          · rw [lookupA_setAssoc_ne _ (dfg.nextInst + 2) (dfg.nextInst + 1) _
                (by omega), lookupA_setAssoc_self]
            simp
          · rw [lookupA_setAssoc_self]
            simp
          · rw [lookupA_setAssoc_self]
      | cons r0 r1 =>
          cases cfs with
          | nil => exact absurd hlen (by simp)
          | cons cf cfs' =>
              have hlen' : cfs'.length + 1 = (r0 :: r1).length := by
                simpa using hlen
              rw [condsEmit_cons_cons]
              cases j with
              | zero =>
                  have hpres := condsEmit_preserves arg dflt (r0 :: r1) cfs'
                    (condsStep arg dest cf i dfg) (i + 1)
                  have hnI : (condsStep arg dest cf i dfg).nextInst =
                    dfg.nextInst + 3 := rfl
                  have hnV : (condsStep arg dest cf i dfg).nextValue =
                    dfg.nextValue + 1 := rfl
                  simp only [Nat.mul_zero, Nat.add_zero]
                  refine ⟨?_, ?_, ?_, ?_⟩
                  · rw [hpres.1 dfg.nextInst (by rw [hnI]; omega)]
                    rw [show (condsStep arg dest cf i dfg).instData =
                        setAssoc (setAssoc (setAssoc dfg.instData dfg.nextInst
                          (.icmpImm .eq arg (i : Int))) (dfg.nextInst + 1)
                          (.brnz dfg.nextValue dest [])) (dfg.nextInst + 2)
                          (.jump cf []) from rfl]
                    rw [lookupA_setAssoc_ne _ (dfg.nextInst + 2) dfg.nextInst _
                        (by omega),
                      lookupA_setAssoc_ne _ (dfg.nextInst + 1) dfg.nextInst _
                        (by omega),
                      lookupA_setAssoc_self]
                  · rw [hpres.1 (dfg.nextInst + 1) (by rw [hnI]; omega)]
                    rw [show (condsStep arg dest cf i dfg).instData =
                        setAssoc (setAssoc (setAssoc dfg.instData dfg.nextInst
                          (.icmpImm .eq arg (i : Int))) (dfg.nextInst + 1)
                          (.brnz dfg.nextValue dest [])) (dfg.nextInst + 2)
                          (.jump cf []) from rfl]
                    rw [lookupA_setAssoc_ne _ (dfg.nextInst + 2)
                        (dfg.nextInst + 1) _ (by omega),
                      lookupA_setAssoc_self]
                    simp
                  · rw [hpres.1 (dfg.nextInst + 2) (by rw [hnI]; omega)]
                    rw [show (condsStep arg dest cf i dfg).instData =
                        setAssoc (setAssoc (setAssoc dfg.instData dfg.nextInst
                          (.icmpImm .eq arg (i : Int))) (dfg.nextInst + 1)
                          (.brnz dfg.nextValue dest [])) (dfg.nextInst + 2)
                          (.jump cf []) from rfl]
                    rw [lookupA_setAssoc_self]
                    simp
                  · rw [hpres.2 dfg.nextValue (by rw [hnV]; omega)]
                    rw [show (condsStep arg dest cf i dfg).valueDefs =
                        setAssoc dfg.valueDefs dfg.nextValue
                          (.result dfg.nextInst 0) from rfl]
                    rw [lookupA_setAssoc_self]
              | succ jp =>
                  have hjp : jp < (r0 :: r1).length := by
                    simp only [List.length_cons] at hj ⊢
                    omega
                  have hih := ih cfs' (condsStep arg dest cf i dfg) (i + 1)
                    jp hjp hlen'
                  rw [show (condsStep arg dest cf i dfg).nextInst =
                      dfg.nextInst + 3 from rfl,
                    show (condsStep arg dest cf i dfg).nextValue =
                      dfg.nextValue + 1 from rfl] at hih
                  refine ⟨?_, ?_, ?_, ?_⟩
                  · rw [show dfg.nextInst + 3 * (jp + 1) =
                        dfg.nextInst + 3 + 3 * jp by omega,
                      show i + (jp + 1) = i + 1 + jp by omega]
                    exact hih.1
                  · rw [show dfg.nextInst + 3 * (jp + 1) + 1 =
                        dfg.nextInst + 3 + 3 * jp + 1 by omega,
                      show dfg.nextValue + (jp + 1) = dfg.nextValue + 1 + jp
                        by omega]
                    simpa using hih.2.1
                  · rw [show dfg.nextInst + 3 * (jp + 1) + 2 =
                        dfg.nextInst + 3 + 3 * jp + 2 by omega]
                    rw [hih.2.2.1]
                    by_cases hc : jp + 1 = (r0 :: r1).length
                    · rw [if_pos hc,
                        if_pos (by simp only [List.length_cons] at hc ⊢; omega)]
                    · rw [if_neg hc,
                        if_neg (by simp only [List.length_cons] at hc ⊢; omega)]
                      simp
                  · rw [show dfg.nextValue + (jp + 1) = dfg.nextValue + 1 + jp
                        by omega,
                      show dfg.nextInst + 3 * (jp + 1) =
                        dfg.nextInst + 3 + 3 * jp by omega]
                    exact hih.2.2.2

/-- Append `b` to the instruction list of the last element. -/
def appendLastL (b : List Nat) : List (Nat × List Nat) → List (Nat × List Nat)
  | [] => []
  | [x] => [(x.1, x.2 ++ b)]
  | x :: y :: rest => x :: appendLastL b (y :: rest)

theorem appendToLastBlock_eq_nil (first b : List Nat) :
    appendToLastBlock first [] b = (first ++ b, []) := rfl

theorem appendLastL_cons_of_ne (b : List Nat) (x : Nat × List Nat)
    (blocks : List (Nat × List Nat)) (h : blocks ≠ []) :
    appendLastL b (x :: blocks) = x :: appendLastL b blocks := by
  cases blocks with
  | nil => exact absurd rfl h
  | cons y r => rfl

theorem appendToLastBlock_eq_cons (b : List Nat) :
    ∀ (blocks : List (Nat × List Nat)) (first : List Nat), blocks ≠ [] →
      appendToLastBlock first blocks b = (first, appendLastL b blocks) := by
  intro blocks
  induction blocks with
  | nil => intro first h; exact absurd rfl h
  | cons x rest ih =>
      intro first _
      cases rest with
      | nil => simp [appendToLastBlock, appendLastL]
      | cons y r =>
          rw [appendLastL_cons_of_ne _ _ _ (by simp)]
          conv_lhs => rw [appendToLastBlock]
          rw [ih x.2 (by simp)]

theorem appendLastL_map_range (b : List Nat) (g1 : Nat → Nat)
    (g2 : Nat → List Nat) :
    ∀ m : Nat,
      appendLastL b ((List.range (m + 1)).map fun j => (g1 j, g2 j)) =
        (List.range (m + 1)).map fun j =>
          (g1 j, g2 j ++ if j = m then b else []) := by
  intro m
  induction m generalizing g1 g2 with
  | zero => simp [appendLastL, List.range_succ]
  | succ m ih =>
      rw [List.range_succ_eq_map]
      simp only [List.map_cons, List.map_map, Function.comp_def,
        Nat.succ_eq_add_one]
      rw [appendLastL_cons_of_ne _ _ _ (by simp),
        ih (fun j => g1 (j + 1)) (fun j => g2 (j + 1))]
      refine congrArg₂ List.cons (by rw [if_neg (by omega)]; simp) ?_
      refine List.map_congr_left fun j hj => ?_
      simp [Nat.add_right_cancel_iff]

/-- C10: `expand_br_table_conds` is total only when the referenced jump table
is non-empty.  The source computes `table_size - 1` on a `usize`; for a
`br_table` whose jump table has zero entries the subtraction underflows and
the expansion fails (modelled by `none`) instead of emitting a bare jump to
the default EBB, while for any non-empty table (with the instruction placed
in the layout) the expansion succeeds. -/
theorem expand_br_table_conds_needs_nonempty (f : Func) (inst : Nat)
    (arg : Nat) (default_ebb : Nat) (table : Nat) (entries : List Nat)
    (e : Nat) (L1 L2 : List (Nat × List Nat)) (a b : List Nat)
    (hdata : lookupA f.dfg.instData inst =
      some (.brTable arg default_ebb table))
    (hjt : f.jumpTables[table]? = some entries)
    (hlayout : f.layout = L1 ++ (e, a ++ inst :: b) :: L2)
    (hL1 : ∀ p ∈ L1, inst ∉ p.2) (ha : inst ∉ a) :
    (entries = [] → expand_br_table_conds inst f = none) ∧
    (entries ≠ [] → (expand_br_table_conds inst f).isSome) := by
  constructor
  · rintro rfl
    simp [expand_br_table_conds, hdata, hjt]
  · intro hne
    obtain ⟨cfs, dfg0, hmk⟩ :
        ∃ x y, f.dfg.makeEbbs (entries.length - 1) = (x, y) := ⟨_, _, rfl⟩
    obtain ⟨dfgN, firstL, blocksL, hC⟩ :
        ∃ x y z, condsEmit arg default_ebb dfg0 0 entries cfs = (x, y, z) :=
      ⟨_, _, _, rfl⟩
    simp only [expand_br_table_conds, hdata, hjt, Option.bind_eq_bind,
      Option.some_bind, if_neg (by simpa using hne : ¬entries.length = 0),
      hmk, hC]
    rw [hlayout, replaceEbbContent_spec inst _ L1 L2 e a b hL1 ha]
    simp

/-- Input function with a `br_table` whose jump table is empty. -/
def brTableEmptyFunc : Func :=
  { dfg :=
      { instData := [(0, .brTable 0 1 0)]
        valueDefs := [(0, .param 0 0)]
        valueTys := [(0, .i32)]
        ebbParams := [(0, [0])]
        nextInst := 1, nextValue := 1, nextEbb := 5 }
    layout := [(0, [0])], jumpTables := [[]], encodings := [] }

/-- Witness for C10: on `brTableEmptyFunc` (an empty jump table) the conds
expansion fails, while on the three-entry `brTableExampleFunc` it succeeds. -/
theorem expand_br_table_conds_needs_nonempty_witness :
    (lookupA brTableEmptyFunc.dfg.instData 0 = some (.brTable 0 1 0)) ∧
    expand_br_table_conds 0 brTableEmptyFunc = none ∧
    (expand_br_table_conds 0 brTableExampleFunc).isSome :=
  ⟨by decide,
    (expand_br_table_conds_needs_nonempty brTableEmptyFunc 0 0 1 0 [] 0
      [] [] [] [] (by decide) (by decide) rfl (by decide) (by decide)).1 rfl,
    (expand_br_table_conds_needs_nonempty brTableExampleFunc 0 0 1 0 [2, 3, 4]
      0 [] [] [] [] (by decide) (by decide) rfl (by decide) (by decide)).2
      (by decide)⟩

theorem getD_range_map (c : Nat) (m j : Nat) (hj : j < m) :
    (((List.range m).map (c + ·)).getD j 0) = c + j := by
  rw [List.getD_eq_getElem?_getD, List.getElem?_map, List.getElem?_range hj]
  rfl

/-- C5: for a `br_table idx, default, jt` instruction with a non-empty jump
table, placed in the layout, `expand_br_table_conds` produces a chain of
fall-through EBBs holding, for every entry `j` of the table, the pair
`t = icmp_imm eq idx, j; brnz t, dest_j` — the `brnz` argument being exactly
the `icmp_imm` result — followed by a jump to the next fall-through EBB, and
after the last pair a single unconditional `jump default`; the CFG is
recomputed for the original EBB and every fall-through EBB. -/
theorem expand_br_table_conds_shape (f : Func) (inst arg default_ebb table : Nat)
    (entries : List Nat) (e : Nat) (L1 L2 : List (Nat × List Nat))
    (a b : List Nat)
    (hdata : lookupA f.dfg.instData inst =
      some (.brTable arg default_ebb table))
    (hjt : f.jumpTables[table]? = some entries)
    (hlayout : f.layout = L1 ++ (e, a ++ inst :: b) :: L2)
    (hL1 : ∀ p ∈ L1, inst ∉ p.2) (ha : inst ∉ a)
    (hne : entries ≠ []) :
    (expand_br_table_conds inst f).map Prod.snd =
      some (e :: (List.range (entries.length - 1)).map (f.dfg.nextEbb + ·)) ∧
    (expand_br_table_conds inst f).map (fun p => p.1.layout) =
      some (L1 ++
        ((e, a ++ [f.dfg.nextInst, f.dfg.nextInst + 1, f.dfg.nextInst + 2] ++
          (if entries.length = 1 then b else [])) ::
        ((List.range (entries.length - 1)).map fun j =>
          (f.dfg.nextEbb + j,
            [f.dfg.nextInst + 3 * j + 3, f.dfg.nextInst + 3 * j + 4,
              f.dfg.nextInst + 3 * j + 5] ++
              (if j + 2 = entries.length then b else []))) ++ L2)) ∧
    ∀ j, j < entries.length →
      (expand_br_table_conds inst f).map (fun p =>
        (lookupA p.1.dfg.instData (f.dfg.nextInst + 3 * j),
         lookupA p.1.dfg.instData (f.dfg.nextInst + 3 * j + 1),
         lookupA p.1.dfg.instData (f.dfg.nextInst + 3 * j + 2),
         lookupA p.1.dfg.valueDefs (f.dfg.nextValue + j))) =
      some (some (.icmpImm .eq arg (j : Int)),
            some (.brnz (f.dfg.nextValue + j) (entries.getD j 0) []),
            some (if j + 1 = entries.length then .jump default_ebb []
                  else .jump (f.dfg.nextEbb + j) []),
            some (.result (f.dfg.nextInst + 3 * j) 0)) := by
  have hne0 : ¬entries.length = 0 := by simpa using hne
  obtain ⟨cfs, dfg0, hmk⟩ :
      ∃ x y, f.dfg.makeEbbs (entries.length - 1) = (x, y) := ⟨_, _, rfl⟩
  obtain ⟨dfgN, firstL, blocksL, hC⟩ :
      ∃ x y z, condsEmit arg default_ebb dfg0 0 entries cfs = (x, y, z) :=
    ⟨_, _, _, rfl⟩
  obtain ⟨FR, BL, hab⟩ :
      ∃ x y, appendToLastBlock firstL blocksL b = (x, y) := ⟨_, _, rfl⟩
  have hcfs : cfs = (List.range (entries.length - 1)).map (f.dfg.nextEbb + ·) := by
    have h := makeEbbs_fst f.dfg (entries.length - 1)
    rw [hmk] at h
    exact h
  have hd0 := makeEbbs_counters f.dfg (entries.length - 1)
  rw [hmk] at hd0
  dsimp only at hd0
  have hlen : cfs.length + 1 = entries.length := by
    rw [hcfs]; simp; omega
  have hfirst := condsEmit_first arg default_ebb entries cfs dfg0 0 hlen
  rw [hC] at hfirst
  dsimp only at hfirst
  have hblocks := condsEmit_blocks arg default_ebb entries cfs dfg0 0 hlen
  rw [hC] at hblocks
  dsimp only at hblocks
  rw [hd0.2.2.2.1] at hfirst hblocks
  have hmain : expand_br_table_conds inst f =
      some ({ f with dfg := dfgN, layout := L1 ++ ((e, a ++ FR) :: BL ++ L2) },
        e :: cfs) := by
    simp only [expand_br_table_conds, hdata, hjt, Option.bind_eq_bind,
      Option.some_bind, if_neg hne0, hmk, hC]
    rw [hlayout, replaceEbbContent_spec inst _ L1 L2 e a b hL1 ha]
    simp [hab]
  refine ⟨?_, ?_, ?_⟩
  · rw [hmain, hcfs]
    rfl
  · rw [hmain]
    simp only [Option.map_some']
    by_cases h1 : entries.length = 1
    · have hbl : blocksL = [] := by
        rw [hblocks, show cfs.length = 0 by omega]
        simp
      rw [hbl, appendToLastBlock_eq_nil] at hab
      obtain ⟨rfl, rfl⟩ : FR = firstL ++ b ∧ BL = [] :=
        ⟨(Prod.mk.injEq _ _ _ _ ▸ hab).1.symm, (Prod.mk.injEq _ _ _ _ ▸ hab).2.symm⟩
      rw [hfirst, h1]
      simp [List.append_assoc]
    · obtain ⟨m, hm⟩ : ∃ m, entries.length - 1 = m + 1 :=
        ⟨entries.length - 2, by omega⟩
      have hlenc : cfs.length = m + 1 := by rw [hcfs, hm]; simp
      have hblne : blocksL ≠ [] := by
        rw [hblocks, hlenc]
        simp
      rw [appendToLastBlock_eq_cons b blocksL firstL hblne] at hab
      obtain ⟨rfl, rfl⟩ : FR = firstL ∧ BL = appendLastL b blocksL :=
        ⟨(Prod.mk.injEq _ _ _ _ ▸ hab).1.symm, (Prod.mk.injEq _ _ _ _ ▸ hab).2.symm⟩
      rw [hfirst, hblocks, hlenc, appendLastL_map_range b
        (fun j => cfs.getD j 0)
        (fun j => [f.dfg.nextInst + 3 * j + 3, f.dfg.nextInst + 3 * j + 4,
          f.dfg.nextInst + 3 * j + 5]), if_neg h1]
      rw [← hm]
      refine congrArg some ?_
      refine congrArg₂ (fun (x y : List (Nat × List Nat)) => x ++ y) rfl ?_
      refine congrArg₂ (fun (x : Nat × List Nat) (y : List (Nat × List Nat)) =>
        x :: y) (by simp) ?_
      refine congrArg₂ (fun (x y : List (Nat × List Nat)) => x ++ y) ?_ rfl
      refine List.map_congr_left fun j hj => ?_
      rw [List.mem_range, hm] at hj
      rw [hcfs, getD_range_map _ _ _ (by omega : j < entries.length - 1)]
      refine congrArg₂ Prod.mk rfl ?_
      have hiff : (j = m) ↔ (j + 2 = entries.length) := by omega
      rw [if_congr hiff rfl rfl]
  · intro j hj
    rw [hmain]
    simp only [Option.map_some']
    have hlkp := condsEmit_lookup arg default_ebb entries cfs dfg0 0 j hj hlen
    rw [hC] at hlkp
    dsimp only at hlkp
    rw [hd0.2.2.2.1, hd0.2.2.2.2] at hlkp
    rw [hlkp.1, hlkp.2.1, hlkp.2.2.1, hlkp.2.2.2]
    simp only [Nat.zero_add]
    by_cases hc : j + 1 = entries.length
    · rw [if_pos hc, if_pos hc]
    · rw [if_neg hc, if_neg hc, hcfs,
        getD_range_map _ _ _ (by omega : j < entries.length - 1)]

/-- Witness for C5 at scenario S4: expanding the 3-entry `br_table` of
`brTableExampleFunc` yields the recompute list `[ebb0, ebb5, ebb6]` and, for
entry `j = 1`, the pair `v2 = icmp_imm eq v0, 1; brnz v2, ebb3` followed by
the jump to the next fall-through EBB. -/
theorem expand_br_table_conds_shape_witness :
    (lookupA brTableExampleFunc.dfg.instData 0 = some (.brTable 0 1 0) ∧
      ([2, 3, 4] : List Nat) ≠ []) ∧
    (expand_br_table_conds 0 brTableExampleFunc).map Prod.snd =
      some [0, 5, 6] ∧
    (expand_br_table_conds 0 brTableExampleFunc).map (fun p =>
        (lookupA p.1.dfg.instData 4, lookupA p.1.dfg.instData 5,
         lookupA p.1.dfg.instData 6, lookupA p.1.dfg.valueDefs 2)) =
      some (some (.icmpImm .eq 0 1), some (.brnz 2 3 []), some (.jump 6 []),
        some (.result 4 0)) :=
  have h := expand_br_table_conds_shape brTableExampleFunc 0 0 1 0 [2, 3, 4]
    0 [] [] [] [] (by decide) (by decide) rfl (by decide) (by decide)
    (by decide)
  ⟨⟨by decide, by decide⟩, h.1, h.2.2 1 (by decide)⟩

/-- An ISA whose oracle always returns a legalization action, whose action
reports no change, and whose libcall fallback fails. -/
def stuckIsa : Isa :=
  { encode := fun _ => .error 0
    applyAction := fun _ _ f => (f, false)
    expandAsLibcall := fun _ f => (f, false)
    handleCallAbi := fun _ f => (f, false)
    handleReturnAbi := fun _ f => (f, false)
    simplifyBranchArguments := fun _ f => f
    legalizeSignatures := fun f => f
    jumpTablesEnabled := true
    pointerType := .i64 }

/-- A one-instruction function (`ebb0(v0, v1): v2 = iadd v0, v1`) that
`stuckIsa` can neither encode, rewrite, nor turn into a libcall. -/
def stuckFunc : Func :=
  { dfg :=
      { instData := [(0, .iadd 0 1)]
        valueDefs := [(0, .param 0 0), (1, .param 0 1), (2, .result 0 0)]
        valueTys := [(0, .i32), (1, .i32), (2, .i32)]
        ebbParams := [(0, [0, 1])]
        nextInst := 1, nextValue := 3, nextEbb := 1 }
    layout := [(0, [0])], jumpTables := [], encodings := [] }

/-- Counterexample to C1: on `stuckFunc` and `stuckIsa` the oracle returns an
action, the action reports no change, and the libcall fallback also fails —
yet `legalize_function` returns successfully (its return type has no error
at all: the source function returns `()` unconditionally), leaving
instruction 0 in the layout with a none encoding.  This refutes both the
claimed `UnlegalizableInstruction` rejection and the claimed encoding
coverage on successful return. -/
theorem legalize_function_no_rejection_counterexample :
    stuckIsa.encode (.iadd 0 1) = .error 0 ∧
    stuckIsa.applyAction 0 0 stuckFunc = (stuckFunc, false) ∧
    stuckIsa.expandAsLibcall 0 stuckFunc = (stuckFunc, false) ∧
    legalize_function stuckIsa 10 stuckFunc = some stuckFunc ∧
    (0, [0]) ∈ stuckFunc.layout ∧
    lookupA stuckFunc.encodings 0 = none := by
  refine ⟨rfl, rfl, rfl, by decide, by decide, rfl⟩

/-- C1 as amended: when the encoding oracle returns an action for a
non-call, non-return, non-branch instruction, the applied action reports no
change, and the libcall fallback also fails, `legalize_inst` simply returns
`(func, false)`: the instruction is left in place with its encoding map
untouched, the driver advances past it, and no error of any kind is
produced — `legalize_function` does not reject the function, and encoding
coverage on return is not guaranteed. -/
theorem legalize_inst_skips_unlegalizable (isa : Isa) (inst : Nat) (f : Func)
    (d : InstructionData) (a : Nat)
    (hdata : lookupA f.dfg.instData inst = some d)
    (hnc : d.isCall = false) (hnr : d.isReturn = false)
    (hnb : d.isBranch = false)
    (henc : isa.encode d = .error a)
    (hact : isa.applyAction a inst f = (f, false))
    (hlib : isa.expandAsLibcall inst f = (f, false)) :
    legalize_inst isa inst f = some (f, false) := by
  simp [legalize_inst, hdata, hnc, hnr, hnb, update_encoding, henc, hact,
    hlib]

/-- Witness for the amended C1 at `stuckIsa` / `stuckFunc`. -/
theorem legalize_inst_skips_unlegalizable_witness :
    (lookupA stuckFunc.dfg.instData 0 = some (.iadd 0 1) ∧
      stuckIsa.encode (.iadd 0 1) = .error 0 ∧
      stuckIsa.applyAction 0 0 stuckFunc = (stuckFunc, false) ∧
      stuckIsa.expandAsLibcall 0 stuckFunc = (stuckFunc, false)) ∧
    legalize_inst stuckIsa 0 stuckFunc = some (stuckFunc, false) :=
  ⟨⟨rfl, rfl, rfl, rfl⟩,
    legalize_inst_skips_unlegalizable stuckIsa 0 stuckFunc (.iadd 0 1) 0
      rfl rfl rfl rfl rfl rfl rfl⟩

end Legalizer
